import Mathlib

/-!
Verification of the synteny-block construction pipeline in
`bin/refreshSynteny.py` (mousemine_dumper).

The Python program is shallowly embedded: each dict row returned by the
MGI query becomes a `Pair` record, each 4-element block list
`[bname, ori, blockCount, fields]` becomes a `Block` record, and the
in-place mutations of `main`, `generateBlocks` and `massageBlocks` become
pure state-passing functions.  Python 2 integers are `Int`; `n / 2` and
`n % 2` on possibly-negative ints are `Int.ediv` / `Int.emod` (for the
positive divisor 2 these agree with Python's floor division and
nonnegative remainder).  Python's stable `list.sort(key=...)` is
`List.mergeSort` with the lexicographic boolean key order.  The module
global `mchr2count` is threaded explicitly as a `String → Nat` state with
initial value `fun _ => 1` (`dict.setdefault(chr, 1)` followed by an
increment).  The tagging side effect `pair['block'] = currBlock[0]` of
`generateBlocks` is not observed by any property below and is omitted
from the embedding.
-/

namespace RefreshSynteny

/-- One row of the `queryMgi` result: a mouse/human ortholog pair with the
rank columns `iHi`/`iMi` that `main` adds later (0 until assigned). -/
structure Pair where
  msymbol : String := ""
  mchr : String
  mstart : Int
  mend : Int
  mstrand : String
  hsymbol : String := ""
  hchr : String
  hstart : Int
  hend : Int
  hstrand : String
  iHi : Int := 0
  iMi : Int := 0
  deriving Repr, DecidableEq

/-- A synteny block, i.e. the Python list `[bname, ori, blockCount, fields]`
built by `startBlock`, where `fields` is the (mutated) copy of the first
merged pair. -/
structure Block where
  bname : String
  ori : Int
  blockCount : Nat
  fields : Pair
  deriving Repr, DecidableEq

/-- The expression `(pair['mstrand'] == pair['hstrand']) and +1 or -1`
shared by `startBlock` and `canMerge`. -/
def orientationOf (p : Pair) : Int :=
  if p.mstrand = p.hstrand then 1 else -1

/-- The `smap` lookup of `queryMgi`: `{ 'f':'+', 'r':'-', '+':'+', '-':'-' }`,
`none` modelling the `KeyError` raised on any other strand code. -/
def smap (s : String) : Option String :=
  if s = "f" then some "+"
  else if s = "r" then some "-"
  else if s = "+" then some "+"
  else if s = "-" then some "-"
  else none

/-- The body of the row loop at the end of `queryMgi`: swap a reversed
mouse interval, normalize the mouse strand, swap a reversed human
interval, normalize the human strand.  A strand code outside `smap`
raises (`none`). -/
def normalizeRow (r : Pair) : Option Pair :=
  let r := if r.mend < r.mstart then { r with mstart := r.mend, mend := r.mstart } else r
  match smap r.mstrand with
  | none => none
  | some ms =>
    let r := { r with mstrand := ms }
    let r := if r.hend < r.hstart then { r with hstart := r.hend, hend := r.hstart } else r
    match smap r.hstrand with
    | none => none
    | some hs => some { r with hstrand := hs }

/-- The whole normalization loop of `queryMgi`; an exception on any row
aborts the run. -/
def normalizeRows (rs : List Pair) : Option (List Pair) :=
  rs.mapM normalizeRow

/-- Genome selector: the string `x ∈ {'m', 'h'}` with which the source
accesses `fields[x+'chr']`, `fields[x+'start']`, `fields[x+'end']`. -/
structure GSel where
  chr : Pair → String
  gstart : Pair → Int
  gend : Pair → Int
  setStart : Pair → Int → Pair
  setEnd : Pair → Int → Pair

/-- The mouse genome selector (`x = 'm'`). -/
def mSel : GSel where
  chr := Pair.mchr
  gstart := Pair.mstart
  gend := Pair.mend
  setStart := fun p v => { p with mstart := v }
  setEnd := fun p v => { p with mend := v }

/-- The human genome selector (`x = 'h'`). -/
def hSel : GSel where
  chr := Pair.hchr
  gstart := Pair.hstart
  gend := Pair.hend
  setStart := fun p v => { p with hstart := v }
  setEnd := fun p v => { p with hend := v }

/-- Lexicographic boolean order on the Python sort key
`(pair[x+'chr'], pair[x+'start'])`. -/
def keyLe (sel : GSel) (p q : Pair) : Bool :=
  decide (sel.chr p < sel.chr q) ||
    (sel.chr p == sel.chr q && decide (sel.gstart p ≤ sel.gstart q))

/-- Key order for `allPairs.sort(key=lambda x:(x['mchr'], x['mstart']))`. -/
def mKeyLe (p q : Pair) : Bool := keyLe mSel p q

/-- Key order for `allPairs.sort(key=lambda x:(x['hchr'], x['hstart']))`. -/
def hKeyLe (p q : Pair) : Bool := keyLe hSel p q

/-- Key order for `blocks.sort(key=lambda b:(b[-1]['mchr'], b[-1]['mstart']))`. -/
def blockMKeyLe (b c : Block) : Bool := mKeyLe b.fields c.fields

/-- Key order for `blocks.sort(key=lambda b:(b[-1]['hchr'], b[-1]['hstart']))`. -/
def blockHKeyLe (b c : Block) : Bool := hKeyLe b.fields c.fields

/-- One overlap-removal sweep of `main`: drop a pair whose start is
before the last retained pair's end on the same chromosome; `last` is
the `lastPair` variable (`none` initially). -/
def removeOverlaps (sel : GSel) : Option Pair → List Pair → List Pair
  | _, [] => []
  | last, p :: rest =>
    if (match last with
        | some lp => sel.chr lp == sel.chr p && decide (sel.gend lp > sel.gstart p)
        | none => false) then
      removeOverlaps sel last rest
    else
      p :: removeOverlaps sel (some p) rest

/-- The `for (i, pair) in enumerate(allPairs): pair['iHi'] = i` loop. -/
def assignIHi (pairs : List Pair) : List Pair :=
  pairs.enum.map fun ip => { ip.2 with iHi := (ip.1 : Int) }

/-- The `for (i, pair) in enumerate(allPairs): pair['iMi'] = i` loop. -/
def assignIMi (pairs : List Pair) : List Pair :=
  pairs.enum.map fun ip => { ip.2 with iMi := (ip.1 : Int) }

/-- The pair-preparation part of `main` (after `queryMgi`): mouse overlap
sweep on the already mouse-sorted input, re-sort by human key, human
overlap sweep, assign `iHi`, re-sort by mouse key, assign `iMi`. -/
def preparePairs (allPairs : List Pair) : List Pair :=
  let t1 := removeOverlaps mSel none allPairs
  let t2 := t1.mergeSort hKeyLe
  let t3 := removeOverlaps hSel none t2
  let t4 := assignIHi t3
  let t5 := t4.mergeSort mKeyLe
  assignIMi t5

/-- `startBlock`: orientation from the first pair, per-chromosome block
number from the `mchr2count` state, name `"%s_%d" % (mchr, n)`. -/
def startBlock (counter : String → Nat) (pair : Pair) : Block × (String → Nat) :=
  let ori := orientationOf pair
  let mchr := pair.mchr
  let n := counter mchr
  let counter' := fun c => if c = mchr then counter mchr + 1 else counter c
  let bname := mchr ++ "_" ++ Nat.repr n
  (⟨bname, ori, 1, pair⟩, counter')

/-- `extendBlock`: grow both intervals of the block to cover the pair and
record the pair's human rank. -/
def extendBlock (currPair : Pair) (currBlock : Block) : Block :=
  { currBlock with
    blockCount := currBlock.blockCount + 1
    fields := { currBlock.fields with
      mstart := min currBlock.fields.mstart currPair.mstart
      mend := max currBlock.fields.mend currPair.mend
      hstart := min currBlock.fields.hstart currPair.hstart
      hend := max currBlock.fields.hend currPair.hend
      iHi := currPair.iHi } }

/-- `canMerge`: `False` for no current block, else the four-way test on
chromosomes, orientation, and human-rank adjacency. -/
def canMerge (currPair : Pair) (currBlock : Option Block) : Bool :=
  match currBlock with
  | none => false
  | some b =>
    currPair.mchr == b.fields.mchr &&
    currPair.hchr == b.fields.hchr &&
    b.ori == orientationOf currPair &&
    currPair.iHi == b.fields.iHi + b.ori

/-- The scan loop of `generateBlocks`: `curr` is `currBlock` (`none`
initially); a mergeable pair extends it, any other pair closes it and
starts a new block. -/
def generateBlocksAux : (String → Nat) → Option Block → List Pair →
    List Block × (String → Nat)
  | counter, curr, [] => (curr.toList, counter)
  | counter, curr, p :: rest =>
    match curr with
    | some b =>
      if canMerge p (some b) then
        generateBlocksAux counter (some (extendBlock p b)) rest
      else
        let sb := startBlock counter p
        let r := generateBlocksAux sb.2 (some sb.1) rest
        (b :: r.1, r.2)
    | none =>
      let sb := startBlock counter p
      generateBlocksAux sb.2 (some sb.1) rest

/-- `generateBlocks`, returning the block list together with the final
`mchr2count` state. -/
def generateBlocks (counter : String → Nat) (allPairs : List Pair) :
    List Block × (String → Nat) :=
  generateBlocksAux counter none allPairs

/-- The loop body of `_massageBlocks` from the second block on: `cb`
already carries any start adjustment made by the previous iteration. -/
def massageStep (sel : GSel) : Block → List Block → List Block
  | cb, [] => [cb]
  | cb, nb :: rest =>
    if sel.chr cb.fields ≠ sel.chr nb.fields then
      cb :: massageStep sel { nb with fields := sel.setStart nb.fields 1 } rest
    else
      let delta := sel.gstart nb.fields - sel.gend cb.fields
      let epsilon := 1 - delta % 2
      let cb' := { cb with fields := sel.setEnd cb.fields (sel.gend cb.fields + delta / 2) }
      let ns := sel.setStart nb.fields (sel.gstart nb.fields - (delta / 2 - epsilon))
      let nb' := { nb with fields := ns }
      cb' :: massageStep sel nb' rest

/-- `_massageBlocks(blocks, x)`: the `for i in xrange(len(blocks)-1)` loop;
a list with fewer than two blocks is returned untouched, otherwise the
very first block's start is set to 1 (`i == 0`) and the gap between each
adjacent same-chromosome couple is closed. -/
def _massageBlocks (blocks : List Block) (sel : GSel) : List Block :=
  match blocks with
  | [] => []
  | [b] => [b]
  | b :: rest => massageStep sel { b with fields := sel.setStart b.fields 1 } rest

/-- `massageBlocks`: massage the mouse genome on the generator-ordered
list, re-sort by human key, massage the human genome, re-sort by mouse
key. -/
def massageBlocks (blocks : List Block) : List Block :=
  let blocks := _massageBlocks blocks mSel
  let blocks := blocks.mergeSort blockHKeyLe
  let blocks := _massageBlocks blocks hSel
  blocks.mergeSort blockMKeyLe

/-- The in-memory pipeline of `main` after `queryMgi`: prepare the pairs,
generate blocks, massage them; the final `mchr2count` state is returned
so that successive in-process invocations can be chained. -/
def pipeline (counter : String → Nat) (allPairs : List Pair) :
    List Block × (String → Nat) :=
  let ps := preparePairs allPairs
  let r := generateBlocks counter ps
  (massageBlocks r.1, r.2)

/-- The initial `mchr2count` state of a fresh process: `setdefault(chr, 1)`
makes every chromosome's first block number 1. -/
def counter0 : String → Nat := fun _ => 1

/-- Propositional form of the boolean key order. -/
def keyLeP (sel : GSel) (p q : Pair) : Prop :=
  sel.chr p < sel.chr q ∨ (sel.chr p = sel.chr q ∧ sel.gstart p ≤ sel.gstart q)

/-- Strict version of the key order. -/
def keyLtP (sel : GSel) (p q : Pair) : Prop :=
  sel.chr p < sel.chr q ∨ (sel.chr p = sel.chr q ∧ sel.gstart p < sel.gstart q)

/-- The lens laws that both `mSel` and `hSel` satisfy. -/
structure GSelLaws (sel : GSel) : Prop where
  chr_setStart : ∀ p v, sel.chr (sel.setStart p v) = sel.chr p
  chr_setEnd : ∀ p v, sel.chr (sel.setEnd p v) = sel.chr p
  gstart_setStart : ∀ p v, sel.gstart (sel.setStart p v) = v
  gend_setStart : ∀ p v, sel.gend (sel.setStart p v) = sel.gend p
  gstart_setEnd : ∀ p v, sel.gstart (sel.setEnd p v) = sel.gstart p
  gend_setEnd : ∀ p v, sel.gend (sel.setEnd p v) = v

/-- The partition shape that claim C1 asserts of a sorted block list in
one genome: the first block starts at 1, adjacent same-chromosome blocks
touch exactly (`end + 1 = start`), and a chromosome change restarts at 1. -/
def partitioned (sel : GSel) (L : List Block) : Prop :=
  (∀ b, L.head? = some b → sel.gstart b.fields = 1) ∧
  (∀ i x y, L[i]? = some x → L[i + 1]? = some y →
    (sel.chr x.fields = sel.chr y.fields →
      sel.gend x.fields + 1 = sel.gstart y.fields) ∧
    (sel.chr x.fields ≠ sel.chr y.fields → sel.gstart y.fields = 1))

/-- `generateBlocksAux` instrumented with the list of pairs merged into
each block; the pair lists are ghost data used only in proofs. -/
def generateBlocksGAux : (String → Nat) → Option (Block × List Pair) → List Pair →
    List (Block × List Pair) × (String → Nat)
  | counter, curr, [] => (curr.toList, counter)
  | counter, curr, p :: rest =>
    match curr with
    | some e =>
      if canMerge p (some e.1) then
        generateBlocksGAux counter (some (extendBlock p e.1, e.2 ++ [p])) rest
      else
        let sb := startBlock counter p
        let r := generateBlocksGAux sb.2 (some (sb.1, [p])) rest
        (e :: r.1, r.2)
    | none =>
      let sb := startBlock counter p
      generateBlocksGAux sb.2 (some (sb.1, [p])) rest

/-- `generateBlocks` with its ghost pair lists. -/
def generateBlocksG (counter : String → Nat) (allPairs : List Pair) :
    List (Block × List Pair) × (String → Nat) :=
  generateBlocksGAux counter none allPairs

/-- The fields of a block that the mouse genome owns. -/
def mView (b : Block) : String × Int × Int :=
  (b.fields.mchr, b.fields.mstart, b.fields.mend)

/-- The fields of a block that the human genome owns. -/
def hView (b : Block) : String × Int × Int :=
  (b.fields.hchr, b.fields.hstart, b.fields.hend)

/-- Everything of a block except its name; claim C8's determinism holds
exactly up to this view. -/
def eraseName (b : Block) : Int × Nat × Pair :=
  (b.ori, b.blockCount, b.fields)

/-- Successive `generateBlocks` invocations inside one process, threading
the module-level `mchr2count` state (claims C8 and C10). -/
def generateRuns : (String → Nat) → List (List Pair) → List Block × (String → Nat)
  | counter, [] => ([], counter)
  | counter, ps :: rest =>
    let r := generateBlocks counter ps
    let r' := generateRuns r.2 rest
    (r.1 ++ r'.1, r'.2)

/-- The name and mouse chromosome of a block: the only data the
block-naming claims depend on. -/
def nameChr (b : Block) : String × String :=
  (b.bname, b.fields.mchr)

/-- Numeric value of a decimal digit string (proof-side observer used to
show `Nat.repr` is injective). -/
def digitsVal (ds : List Char) : Nat :=
  ds.foldl (fun a c => 10 * a + (c.toNat - 48)) 0

/-- Invariant tying the `mchr2count` state to the `(bname, mchr)` pairs of
the blocks created so far: each chromosome's counter is one past the
number of its blocks, the names on each chromosome read
`chr_1, chr_2, ...` in creation order, every existing name is fresh for
every future counter value, and all names are pairwise distinct. -/
def NamesInv (counter : String → Nat) (ns : List (String × String)) : Prop :=
  (∀ chr, counter chr = (ns.filter (fun x => x.2 == chr)).length + 1) ∧
  (∀ chr, (ns.filter (fun x => x.2 == chr)).map Prod.fst =
    (List.range (ns.filter (fun x => x.2 == chr)).length).map
      (fun i => chr ++ "_" ++ Nat.repr (i + 1))) ∧
  (∀ x ∈ ns, ∀ chr n, counter chr ≤ n → x.1 ≠ chr ++ "_" ++ Nat.repr n) ∧
  List.Pairwise (fun x y => x.1 ≠ y.1) ns

/-- Non-overlap of two pairs on the same chromosome of one genome, in
scan order: the relation the overlap filter establishes between a
retained pair and every later retained pair. -/
def ovOk (sel : GSel) (p q : Pair) : Prop :=
  sel.chr p = sel.chr q → sel.gend p ≤ sel.gstart q

/-- Two pair records carrying the same coordinates, chromosomes, and
strands (ranks may differ). -/
def coordEq (p q : Pair) : Prop :=
  p.mchr = q.mchr ∧ p.mstart = q.mstart ∧ p.mend = q.mend ∧
  p.hchr = q.hchr ∧ p.hstart = q.hstart ∧ p.hend = q.hend ∧
  p.mstrand = q.mstrand ∧ p.hstrand = q.hstrand

/-- The mouse key order on name-erased blocks. -/
def eKeyM (x y : Int × Nat × Pair) : Bool := mKeyLe x.2.2 y.2.2

/-- The human key order on name-erased blocks. -/
def eKeyH (x y : Int × Nat × Pair) : Bool := hKeyLe x.2.2 y.2.2

/-- Invariant of one in-construction block together with the pairs merged
into it: the pair list is nonempty, every pair sits on the block's two
chromosomes, the block's two intervals are exactly the min/max hull of
its pairs, and the pairs' human ranks form a run stepping by the block's
orientation, ending at the stored rank. -/
def BlockPairsInv (e : Block × List Pair) : Prop :=
  e.2 ≠ [] ∧
  (∀ p ∈ e.2, p.mchr = e.1.fields.mchr ∧ p.hchr = e.1.fields.hchr) ∧
  (∀ p ∈ e.2, e.1.fields.mstart ≤ p.mstart ∧ p.mend ≤ e.1.fields.mend ∧
    e.1.fields.hstart ≤ p.hstart ∧ p.hend ≤ e.1.fields.hend) ∧
  (∃ p ∈ e.2, p.mstart = e.1.fields.mstart) ∧
  (∃ p ∈ e.2, p.mend = e.1.fields.mend) ∧
  (∃ p ∈ e.2, p.hstart = e.1.fields.hstart) ∧
  (∃ p ∈ e.2, p.hend = e.1.fields.hend) ∧
  (∀ (i : Nat) (p : Pair), e.2[i]? = some p →
    p.iHi = e.1.fields.iHi - ((e.2.length : Int) - 1 - (i : Int)) * e.1.ori)

/-- Weak lexicographic order on a genome view `(chr, start, end)`. -/
def vLe (x y : String × Int × Int) : Prop :=
  x.1 < y.1 ∨ (x.1 = y.1 ∧ x.2.1 ≤ y.2.1)

/-- Strict lexicographic order on a genome view `(chr, start, end)`. -/
def vLt (x y : String × Int × Int) : Prop :=
  x.1 < y.1 ∨ (x.1 = y.1 ∧ x.2.1 < y.2.1)

/-- First pair of a two-chromosome input (witness for claim C1). -/
def twoChrP1 : Pair :=
  { mchr := "1", mstart := 5, mend := 10, mstrand := "+",
    hchr := "2", hstart := 7, hend := 12, hstrand := "+" }

/-- Second pair of a two-chromosome input, on different chromosomes in
both genomes. -/
def twoChrP2 : Pair :=
  { mchr := "3", mstart := 4, mend := 9, mstrand := "+",
    hchr := "5", hstart := 11, hend := 20, hstrand := "+" }

/-! ### Concrete records used by the scenario claims and counterexamples -/

/-- First pair of the spec's single-block-merge scenario (claim C4). -/
def scenarioP1 : Pair :=
  { mchr := "6", mstart := 10, mend := 11, mstrand := "+",
    hchr := "22", hstart := 50, hend := 51, hstrand := "-" }

/-- Second pair of the single-block-merge scenario. -/
def scenarioP2 : Pair :=
  { mchr := "6", mstart := 12, mend := 13, mstrand := "+",
    hchr := "22", hstart := 40, hend := 41, hstrand := "-" }

/-- Third pair of the single-block-merge scenario. -/
def scenarioP3 : Pair :=
  { mchr := "6", mstart := 14, mend := 15, mstrand := "+",
    hchr := "22", hstart := 30, hend := 31, hstrand := "-" }

/-- A block ending at 100 on mouse chromosome 1 (claim C5's instance). -/
def gapBlock1 : Block :=
  { bname := "1_1", ori := 1, blockCount := 1,
    fields := { mchr := "1", mstart := 50, mend := 100, mstrand := "+",
                hchr := "1", hstart := 1, hend := 2, hstrand := "+" } }

/-- The next block, starting at 106 on the same mouse chromosome. -/
def gapBlock2 : Block :=
  { bname := "1_2", ori := 1, blockCount := 1,
    fields := { mchr := "1", mstart := 106, mend := 200, mstrand := "+",
                hchr := "1", hstart := 3, hend := 4, hstrand := "+" } }

/-- A degenerate one-base mouse gene whose interval is `[5,5]` (claim C3's
counterexample input; its human gene comes second in human order). -/
def tieQ1 : Pair :=
  { mchr := "1", mstart := 5, mend := 5, mstrand := "+",
    hchr := "1", hstart := 100, hend := 105, hstrand := "+" }

/-- A mouse gene `[5,9]` sharing its start with `tieQ1` but coming first
in human order. -/
def tieQ2 : Pair :=
  { mchr := "1", mstart := 5, mend := 9, mstrand := "+",
    hchr := "1", hstart := 50, hend := 60, hstrand := "+" }

/-- A row whose strand codes are the words `forward`/`reverse` instead of
the codes `f`/`r` (claim C7's counterexample input). -/
def fwdRow : Pair :=
  { msymbol := "Kit", mchr := "5", mstart := 100, mend := 200, mstrand := "forward",
    hsymbol := "KIT", hchr := "4", hstart := 300, hend := 400, hstrand := "reverse" }

/-- A well-formed row with both intervals reversed and `f`/`r` strand
codes, exercising every normalization branch. -/
def revRow : Pair :=
  { msymbol := "Pax6", mchr := "2", mstart := 20, mend := 10, mstrand := "f",
    hsymbol := "PAX6", hchr := "11", hstart := 9, hend := 4, hstrand := "r" }

/-- What `queryMgi` turns `revRow` into. -/
def revRowN : Pair :=
  { msymbol := "Pax6", mchr := "2", mstart := 10, mend := 20, mstrand := "+",
    hsymbol := "PAX6", hchr := "11", hstart := 4, hend := 9, hstrand := "-" }

/-! ### Basic facts about the sort-key orders -/

theorem keyLe_iff (sel : GSel) (p q : Pair) : keyLe sel p q = true ↔ keyLeP sel p q := by
  simp [keyLe, keyLeP]

theorem keyLeP_trans (sel : GSel) {p q r : Pair}
    (h1 : keyLeP sel p q) (h2 : keyLeP sel q r) : keyLeP sel p r := by
  rcases h1 with h1 | ⟨e1, s1⟩ <;> rcases h2 with h2 | ⟨e2, s2⟩
  · exact Or.inl (lt_trans h1 h2)
  · exact Or.inl (e2 ▸ h1)
  · exact Or.inl (e1 ▸ h2)
  · exact Or.inr ⟨e1.trans e2, le_trans s1 s2⟩

theorem keyLeP_total (sel : GSel) (p q : Pair) : keyLeP sel p q ∨ keyLeP sel q p := by
  rcases lt_trichotomy (sel.chr p) (sel.chr q) with h | h | h
  · exact Or.inl (Or.inl h)
  · rcases le_total (sel.gstart p) (sel.gstart q) with h' | h'
    · exact Or.inl (Or.inr ⟨h, h'⟩)
    · exact Or.inr (Or.inr ⟨h.symm, h'⟩)
  · exact Or.inr (Or.inl h)

theorem keyLe_trans (sel : GSel) (p q r : Pair)
    (h1 : keyLe sel p q) (h2 : keyLe sel q r) : keyLe sel p r := by
  rw [keyLe_iff] at *
  exact keyLeP_trans sel h1 h2

theorem keyLe_total (sel : GSel) (p q : Pair) : keyLe sel p q || keyLe sel q p := by
  rcases keyLeP_total sel p q with h | h
  · simp [(keyLe_iff sel p q).mpr h]
  · simp [(keyLe_iff sel q p).mpr h]

theorem keyLtP_trans (sel : GSel) {p q r : Pair}
    (h1 : keyLtP sel p q) (h2 : keyLtP sel q r) : keyLtP sel p r := by
  rcases h1 with h1 | ⟨e1, s1⟩ <;> rcases h2 with h2 | ⟨e2, s2⟩
  · exact Or.inl (lt_trans h1 h2)
  · exact Or.inl (e2 ▸ h1)
  · exact Or.inl (e1 ▸ h2)
  · exact Or.inr ⟨e1.trans e2, lt_trans s1 s2⟩

theorem keyLtP_asymm (sel : GSel) {p q : Pair}
    (h1 : keyLtP sel p q) (h2 : keyLtP sel q p) : False := by
  rcases h1 with h1 | ⟨e1, s1⟩ <;> rcases h2 with h2 | ⟨e2, s2⟩
  · exact absurd h2 (lt_asymm h1)
  · exact absurd h1 (e2 ▸ lt_irrefl _)
  · exact absurd h2 (e1 ▸ lt_irrefl _)
  · exact absurd s2 (not_lt_of_lt s1)

theorem keyLtP_of_leP_ne (sel : GSel) {p q : Pair} (hle : keyLeP sel p q)
    (hne : ¬(sel.chr p = sel.chr q ∧ sel.gstart p = sel.gstart q)) : keyLtP sel p q := by
  rcases hle with h | ⟨e, s⟩
  · exact Or.inl h
  · rcases lt_or_eq_of_le s with h' | h'
    · exact Or.inr ⟨e, h'⟩
    · exact absurd ⟨e, h'⟩ hne

/-! ### Getter/setter laws of the genome selectors -/

theorem mSelLaws : GSelLaws mSel := by
  constructor <;> intros <;> rfl

theorem hSelLaws : GSelLaws hSel := by
  constructor <;> intros <;> rfl

/-! ### Structure of a `massageStep` pass -/

theorem massageStep_cons {sel : GSel} (laws : GSelLaws sel) (cb : Block) (rest : List Block) :
    ∃ hd tl, massageStep sel cb rest = hd :: tl ∧
      sel.gstart hd.fields = sel.gstart cb.fields ∧
      sel.chr hd.fields = sel.chr cb.fields := by
  cases rest with
  | nil => exact ⟨cb, [], rfl, rfl, rfl⟩
  | cons nb rest' =>
    by_cases h : sel.chr cb.fields = sel.chr nb.fields
    · refine ⟨{ cb with fields := sel.setEnd cb.fields (sel.gend cb.fields +
          (sel.gstart nb.fields - sel.gend cb.fields) / 2) },
        massageStep sel { nb with fields := sel.setStart nb.fields (sel.gstart nb.fields -
          ((sel.gstart nb.fields - sel.gend cb.fields) / 2 -
            (1 - (sel.gstart nb.fields - sel.gend cb.fields) % 2))) } rest', ?_, ?_, ?_⟩
      · simp only [massageStep, if_neg (not_not_intro h)]
      · exact laws.gstart_setEnd _ _
      · exact laws.chr_setEnd _ _
    · exact ⟨cb, massageStep sel { nb with fields := sel.setStart nb.fields 1 } rest',
        by simp only [massageStep, if_pos h], rfl, rfl⟩

theorem massageStep_length (sel : GSel) :
    ∀ (rest : List Block) (cb : Block),
      (massageStep sel cb rest).length = rest.length + 1 := by
  intro rest
  induction rest with
  | nil => intro cb; rfl
  | cons nb rest' ih =>
    intro cb
    by_cases h : sel.chr cb.fields = sel.chr nb.fields
    · simp only [massageStep, if_neg (not_not_intro h), List.length_cons, ih]
    · simp only [massageStep, if_pos h, List.length_cons, ih]

theorem massageStep_map {γ : Type} (sel : GSel) (O : Block → γ)
    (hs : ∀ (b : Block) (v : Int), O { b with fields := sel.setStart b.fields v } = O b)
    (he : ∀ (b : Block) (v : Int), O { b with fields := sel.setEnd b.fields v } = O b) :
    ∀ (rest : List Block) (cb : Block),
      (massageStep sel cb rest).map O = O cb :: rest.map O := by
  intro rest
  induction rest with
  | nil => intro cb; rfl
  | cons nb rest' ih =>
    intro cb
    by_cases h : sel.chr cb.fields = sel.chr nb.fields
    · simp only [massageStep, if_neg (not_not_intro h), List.map_cons, ih, he, hs]
    · simp only [massageStep, if_pos h, List.map_cons, ih, he, hs]

theorem massageStep_adj {sel : GSel} (laws : GSelLaws sel) :
    ∀ (rest : List Block) (cb : Block) (i : Nat) (x y : Block),
      (cb :: rest)[i]? = some x → (cb :: rest)[i + 1]? = some y →
      ((sel.chr x.fields = sel.chr y.fields →
        ((massageStep sel cb rest)[i]?.map fun b => sel.gend b.fields) =
          some (sel.gend x.fields + (sel.gstart y.fields - sel.gend x.fields) / 2) ∧
        ((massageStep sel cb rest)[i + 1]?.map fun b => sel.gstart b.fields) =
          some (sel.gend x.fields + (sel.gstart y.fields - sel.gend x.fields) / 2 + 1)) ∧
      (sel.chr x.fields ≠ sel.chr y.fields →
        ((massageStep sel cb rest)[i]?.map fun b => sel.gend b.fields) =
          some (sel.gend x.fields) ∧
        ((massageStep sel cb rest)[i + 1]?.map fun b => sel.gstart b.fields) = some 1)) := by
  intro rest
  induction rest with
  | nil =>
    intro cb i x y _ hy
    rcases i with _ | j <;> simp at hy
  | cons nb rest' ih =>
    intro cb i x y hx hy
    rcases i with _ | j
    · -- adjacent couple (cb, nb)
      simp only [List.getElem?_cons_zero, Option.some.injEq] at hx
      simp only [List.getElem?_cons_succ, List.getElem?_cons_zero, Option.some.injEq] at hy
      subst hx; subst hy
      constructor
      · intro heq
        simp only [massageStep, if_neg (not_not_intro heq)]
        obtain ⟨hd, tl, hcons, hhd, -⟩ := massageStep_cons laws
          { nb with fields := sel.setStart nb.fields (sel.gstart nb.fields -
            ((sel.gstart nb.fields - sel.gend cb.fields) / 2 -
              (1 - (sel.gstart nb.fields - sel.gend cb.fields) % 2))) } rest'
        rw [hcons]
        simp only [List.getElem?_cons_zero, List.getElem?_cons_succ, Option.map_some']
        rw [laws.gend_setEnd, hhd, laws.gstart_setStart]
        constructor
        · rfl
        · congr 1
          omega
      · intro hne
        simp only [massageStep, if_pos hne]
        obtain ⟨hd, tl, hcons, hhd, -⟩ := massageStep_cons laws
          { nb with fields := sel.setStart nb.fields 1 } rest'
        rw [hcons]
        simp only [List.getElem?_cons_zero, List.getElem?_cons_succ, Option.map_some']
        rw [hhd, laws.gstart_setStart]
        refine ⟨?_, ?_⟩ <;> simp
    · -- the couple lies inside the recursive call
      simp only [List.getElem?_cons_succ] at hx hy
      by_cases h : sel.chr cb.fields = sel.chr nb.fields
      · simp only [massageStep, if_neg (not_not_intro h), List.getElem?_cons_succ]
        set nb' : Block := { nb with fields := sel.setStart nb.fields (sel.gstart nb.fields -
          ((sel.gstart nb.fields - sel.gend cb.fields) / 2 -
            (1 - (sel.gstart nb.fields - sel.gend cb.fields) % 2))) } with hnb'
        have hxy : ∃ x₂, (nb' :: rest')[j]? = some x₂ ∧
            sel.chr x₂.fields = sel.chr x.fields ∧ sel.gend x₂.fields = sel.gend x.fields := by
          rcases j with _ | k
          · simp only [List.getElem?_cons_zero, Option.some.injEq] at hx
            subst hx
            exact ⟨nb', by simp, by rw [hnb']; exact laws.chr_setStart _ _,
              by rw [hnb']; exact laws.gend_setStart _ _⟩
          · simp only [List.getElem?_cons_succ] at hx ⊢
            exact ⟨x, hx, rfl, rfl⟩
        obtain ⟨x₂, hx₂, hchr₂, hend₂⟩ := hxy
        have hy₂ : (nb' :: rest')[j + 1]? = some y := by
          simpa only [List.getElem?_cons_succ] using hy
        have := ih nb' j x₂ y hx₂ hy₂
        rw [hchr₂, hend₂] at this
        exact this
      · simp only [massageStep, if_pos h, List.getElem?_cons_succ]
        set nb' : Block := { nb with fields := sel.setStart nb.fields 1 } with hnb'
        have hxy : ∃ x₂, (nb' :: rest')[j]? = some x₂ ∧
            sel.chr x₂.fields = sel.chr x.fields ∧ sel.gend x₂.fields = sel.gend x.fields := by
          rcases j with _ | k
          · simp only [List.getElem?_cons_zero, Option.some.injEq] at hx
            subst hx
            exact ⟨nb', by simp, by rw [hnb']; exact laws.chr_setStart _ _,
              by rw [hnb']; exact laws.gend_setStart _ _⟩
          · simp only [List.getElem?_cons_succ] at hx ⊢
            exact ⟨x, hx, rfl, rfl⟩
        obtain ⟨x₂, hx₂, hchr₂, hend₂⟩ := hxy
        have hy₂ : (nb' :: rest')[j + 1]? = some y := by
          simpa only [List.getElem?_cons_succ] using hy
        have := ih nb' j x₂ y hx₂ hy₂
        rw [hchr₂, hend₂] at this
        exact this

theorem chain'_cons_of_head {α : Type} {R : α → α → Prop} {a a' : α} {l : List α}
    (h : List.Chain' R (a :: l)) (ha : ∀ c, R a c → R a' c) : List.Chain' R (a' :: l) := by
  cases l with
  | nil => simp
  | cons b l =>
    rw [List.chain'_cons] at h ⊢
    exact ⟨ha _ h.1, h.2⟩

theorem massageStep_chain {sel : GSel} (laws : GSelLaws sel) :
    ∀ (rest : List Block) (cb : Block),
      sel.gstart cb.fields ≤ sel.gend cb.fields →
      (∀ b ∈ rest, 1 ≤ sel.gstart b.fields ∧ sel.gstart b.fields < sel.gend b.fields) →
      List.Chain' (fun b c => sel.chr b.fields = sel.chr c.fields →
        sel.gend b.fields ≤ sel.gstart c.fields) (cb :: rest) →
      List.Chain' (fun b c => sel.chr b.fields ≤ sel.chr c.fields) (cb :: rest) →
      List.Chain' (fun b c => keyLtP sel b.fields c.fields) (massageStep sel cb rest) := by
  intro rest
  induction rest with
  | nil =>
    intro cb _ _ _ _
    simp [massageStep]
  | cons nb rest' ih =>
    intro cb h1 h2 hov hchr
    rw [List.chain'_cons] at hov hchr
    obtain ⟨hov1, hov2⟩ := hov
    obtain ⟨hchr1, hchr2⟩ := hchr
    have hnb1 : 1 ≤ sel.gstart nb.fields ∧ sel.gstart nb.fields < sel.gend nb.fields :=
      h2 nb (List.mem_cons_self _ _)
    by_cases h : sel.chr cb.fields = sel.chr nb.fields
    · simp only [massageStep, if_neg (not_not_intro h)]
      have hδ : sel.gend cb.fields ≤ sel.gstart nb.fields := hov1 h
      set v := sel.gstart nb.fields - ((sel.gstart nb.fields - sel.gend cb.fields) / 2 -
        (1 - (sel.gstart nb.fields - sel.gend cb.fields) % 2)) with hv
      set nb' : Block := { nb with fields := sel.setStart nb.fields v } with hnb'
      have hs' : sel.gstart nb'.fields = v := laws.gstart_setStart _ _
      have he' : sel.gend nb'.fields = sel.gend nb.fields := laws.gend_setStart _ _
      have hc' : sel.chr nb'.fields = sel.chr nb.fields := laws.chr_setStart _ _
      have tail := ih nb' (by rw [hs', he']; omega)
        (fun b hb => h2 b (List.mem_cons_of_mem _ hb))
        (chain'_cons_of_head hov2 (fun c hc => by rw [hc', he']; exact hc))
        (chain'_cons_of_head hchr2 (fun c hc => by rw [hc']; exact hc))
      obtain ⟨hd, tl, hcons, hhd, hhc⟩ := massageStep_cons laws nb' rest'
      rw [hcons]
      rw [hcons] at tail
      rw [List.chain'_cons]
      refine ⟨?_, tail⟩
      refine Or.inr ⟨?_, ?_⟩
      · rw [laws.chr_setEnd, hhc, hc', h]
      · rw [laws.gstart_setEnd, hhd, hs']
        omega
    · simp only [massageStep, if_pos h]
      set nb' : Block := { nb with fields := sel.setStart nb.fields 1 } with hnb'
      have hs' : sel.gstart nb'.fields = 1 := laws.gstart_setStart _ _
      have he' : sel.gend nb'.fields = sel.gend nb.fields := laws.gend_setStart _ _
      have hc' : sel.chr nb'.fields = sel.chr nb.fields := laws.chr_setStart _ _
      have tail := ih nb' (by rw [hs', he']; omega)
        (fun b hb => h2 b (List.mem_cons_of_mem _ hb))
        (chain'_cons_of_head hov2 (fun c hc => by rw [hc', he']; exact hc))
        (chain'_cons_of_head hchr2 (fun c hc => by rw [hc']; exact hc))
      obtain ⟨hd, tl, hcons, hhd, hhc⟩ := massageStep_cons laws nb' rest'
      rw [hcons]
      rw [hcons] at tail
      rw [List.chain'_cons]
      refine ⟨Or.inl ?_, tail⟩
      rw [hhc, hc']
      exact lt_of_le_of_ne hchr1 h

/-! ### The `_massageBlocks` pass -/

theorem _massageBlocks_length (sel : GSel) (bs : List Block) :
    (_massageBlocks bs sel).length = bs.length := by
  cases bs with
  | nil => rfl
  | cons b rest =>
    cases rest with
    | nil => rfl
    | cons nb rest' =>
      simp only [_massageBlocks, massageStep_length, List.length_cons]

theorem _massageBlocks_map {γ : Type} (sel : GSel) (O : Block → γ)
    (hs : ∀ (b : Block) (v : Int), O { b with fields := sel.setStart b.fields v } = O b)
    (he : ∀ (b : Block) (v : Int), O { b with fields := sel.setEnd b.fields v } = O b)
    (bs : List Block) :
    (_massageBlocks bs sel).map O = bs.map O := by
  cases bs with
  | nil => rfl
  | cons b rest =>
    cases rest with
    | nil => rfl
    | cons nb rest' =>
      simp only [_massageBlocks, massageStep_map sel O hs he, hs, List.map_cons]

theorem _massageBlocks_adj {sel : GSel} (laws : GSelLaws sel) (bs : List Block)
    (i : Nat) (x y : Block) (hx : bs[i]? = some x) (hy : bs[i + 1]? = some y) :
    (sel.chr x.fields = sel.chr y.fields →
      ((_massageBlocks bs sel)[i]?.map fun b => sel.gend b.fields) =
        some (sel.gend x.fields + (sel.gstart y.fields - sel.gend x.fields) / 2) ∧
      ((_massageBlocks bs sel)[i + 1]?.map fun b => sel.gstart b.fields) =
        some (sel.gend x.fields + (sel.gstart y.fields - sel.gend x.fields) / 2 + 1)) ∧
    (sel.chr x.fields ≠ sel.chr y.fields →
      ((_massageBlocks bs sel)[i]?.map fun b => sel.gend b.fields) =
        some (sel.gend x.fields) ∧
      ((_massageBlocks bs sel)[i + 1]?.map fun b => sel.gstart b.fields) = some 1) := by
  match bs with
  | [] => simp at hx
  | [b] =>
    rcases i with _ | j <;> simp at hy
  | b :: nb :: rest =>
    show _ ∧ _
    have hb1 : ((({ b with fields := sel.setStart b.fields 1 } : Block) :: nb :: rest)[i]? =
        some x) ∨ (i = 0 ∧ b = x) := by
      rcases i with _ | j
      · right
        simp only [List.getElem?_cons_zero, Option.some.injEq] at hx
        exact ⟨rfl, hx⟩
      · left
        simp only [List.getElem?_cons_succ] at hx ⊢
        exact hx
    have hy' : ((({ b with fields := sel.setStart b.fields 1 } : Block) :: nb :: rest)[i + 1]? =
        some y) := by
      rcases i with _ | j
      · simpa using hy
      · simpa using hy
    rcases hb1 with hx' | ⟨hi, hxb⟩
    · exact massageStep_adj laws (nb :: rest) _ i x y hx' hy'
    · subst hi; subst hxb
      have hx' : ((({ b with fields := sel.setStart b.fields 1 } : Block) :: nb :: rest)[0]? =
          some { b with fields := sel.setStart b.fields 1 }) := by simp
      have := massageStep_adj laws (nb :: rest) _ 0 _ y hx' hy'
      rw [laws.chr_setStart, laws.gend_setStart] at this
      exact this

theorem _massageBlocks_partitioned {sel : GSel} (laws : GSelLaws sel) (bs : List Block)
    (hlen : 2 ≤ bs.length) : partitioned sel (_massageBlocks bs sel) := by
  match bs with
  | [] => simp at hlen
  | [b] => simp at hlen
  | b :: nb :: rest =>
    constructor
    · intro hd hhd
      obtain ⟨hd', tl', hcons, hhd', -⟩ :=
        massageStep_cons laws ({ b with fields := sel.setStart b.fields 1 }) (nb :: rest)
      rw [show _massageBlocks (b :: nb :: rest) sel =
        massageStep sel { b with fields := sel.setStart b.fields 1 } (nb :: rest) from rfl,
        hcons] at hhd
      simp only [List.head?_cons, Option.some.injEq] at hhd
      subst hhd
      rw [hhd', laws.gstart_setStart]
    · intro i x' y' hx' hy'
      -- recover the untouched input blocks at positions i and i+1
      have hlen1 : (_massageBlocks (b :: nb :: rest) sel).length = (b :: nb :: rest).length :=
        _massageBlocks_length sel _
      have hxlt : i < (b :: nb :: rest).length := by
        obtain ⟨h, -⟩ := List.getElem?_eq_some_iff.mp hx'
        omega
      have hylt : i + 1 < (b :: nb :: rest).length := by
        obtain ⟨h, -⟩ := List.getElem?_eq_some_iff.mp hy'
        omega
      obtain ⟨x, hx⟩ : ∃ x, (b :: nb :: rest)[i]? = some x :=
        ⟨_, List.getElem?_eq_getElem hxlt⟩
      obtain ⟨y, hy⟩ : ∃ y, (b :: nb :: rest)[i + 1]? = some y :=
        ⟨_, List.getElem?_eq_getElem hylt⟩
      -- chromosomes agree positionally between input and output
      have hmap : (_massageBlocks (b :: nb :: rest) sel).map (fun c => sel.chr c.fields) =
          (b :: nb :: rest).map (fun c => sel.chr c.fields) :=
        _massageBlocks_map sel _ (fun c v => laws.chr_setStart _ _)
          (fun c v => laws.chr_setEnd _ _) _
      have hchrx : sel.chr x'.fields = sel.chr x.fields := by
        have := congrArg (fun l => l[i]?) hmap
        simp only [List.getElem?_map, hx, hx', Option.map_some', Option.some.injEq] at this
        exact this
      have hchry : sel.chr y'.fields = sel.chr y.fields := by
        have := congrArg (fun l => l[i + 1]?) hmap
        simp only [List.getElem?_map, hy, hy', Option.map_some', Option.some.injEq] at this
        exact this
      have hadj := _massageBlocks_adj laws (b :: nb :: rest) i x y hx hy
      constructor
      · intro hcc
        have heq : sel.chr x.fields = sel.chr y.fields := by rw [← hchrx, ← hchry]; exact hcc
        obtain ⟨h1, h2⟩ := hadj.1 heq
        rw [hx'] at h1
        rw [hy'] at h2
        simp only [Option.map_some', Option.some.injEq] at h1 h2
        rw [h1, h2]
      · intro hcc
        have hne : sel.chr x.fields ≠ sel.chr y.fields := by rw [← hchrx, ← hchry]; exact hcc
        obtain ⟨-, h2⟩ := hadj.2 hne
        rw [hy'] at h2
        simp only [Option.map_some', Option.some.injEq] at h2
        exact h2

theorem _massageBlocks_chain {sel : GSel} (laws : GSelLaws sel) (bs : List Block)
    (helem : ∀ b ∈ bs, 1 ≤ sel.gstart b.fields ∧ sel.gstart b.fields < sel.gend b.fields)
    (hov : List.Chain' (fun b c => sel.chr b.fields = sel.chr c.fields →
      sel.gend b.fields ≤ sel.gstart c.fields) bs)
    (hchr : List.Chain' (fun b c => sel.chr b.fields ≤ sel.chr c.fields) bs) :
    List.Chain' (fun b c => keyLtP sel b.fields c.fields) (_massageBlocks bs sel) := by
  match bs with
  | [] => simp [_massageBlocks]
  | [b] => simp [_massageBlocks]
  | b :: nb :: rest =>
    show List.Chain' _ (massageStep sel { b with fields := sel.setStart b.fields 1 } (nb :: rest))
    have hb := helem b (List.mem_cons_self _ _)
    apply massageStep_chain laws
    · rw [laws.gstart_setStart, laws.gend_setStart]
      omega
    · intro c hc
      exact helem c (List.mem_cons_of_mem _ hc)
    · exact chain'_cons_of_head hov
        (fun c hc => by rw [laws.chr_setStart, laws.gend_setStart]; exact hc)
    · exact chain'_cons_of_head hchr
        (fun c hc => by rw [laws.chr_setStart]; exact hc)

/-! ### Claim C2: the `canMerge` decision -/

/-- C2. `canMerge` returns `False` for a missing current block, and for a
real block it returns `True` exactly when the two chromosome equalities,
the orientation equality, and the human-rank adjacency
`pair.iHi == block.iHi + block.ori` all hold. -/
theorem canMerge_spec (p : Pair) (b : Block) :
    canMerge p none = false ∧
      (canMerge p (some b) = true ↔
        (p.mchr = b.fields.mchr ∧ p.hchr = b.fields.hchr ∧
          orientationOf p = b.ori ∧ p.iHi = b.fields.iHi + b.ori)) := by
  refine ⟨rfl, ?_⟩
  simp only [canMerge, Bool.and_eq_true, beq_iff_eq]
  constructor
  · rintro ⟨⟨⟨h1, h2⟩, h3⟩, h4⟩
    exact ⟨h1, h2, h3.symm, h4⟩
  · rintro ⟨h1, h2, h3, h4⟩
    exact ⟨⟨⟨h1, h2⟩, h3.symm⟩, h4⟩

/-! ### Claim C9: massaging a single block changes nothing -/

/-- C9. `massageBlocks` applied to a one-block list returns the block
unchanged: both `_massageBlocks` passes iterate over `len(blocks)-1 = 0`
adjacent couples, so no field (in particular no start coordinate) is
touched. -/
theorem massageBlocks_singleton (b : Block) : massageBlocks [b] = [b] := by
  simp [massageBlocks, _massageBlocks]


/-! ### Claim C5: gap splitting between adjacent same-chromosome blocks -/

/-- C5. For any two adjacent blocks on the same chromosome of the genome
being massaged, with `gap = next.start - current.end`, the massager
advances `current.end` by `gap div 2` (Python floor division) and
retreats `next.start` to exactly `current.end + 1`, leaving no residual
gap; the statement covers both the mouse and the human pass. -/
theorem gapSplit_spec (bs : List Block) (i : Nat) (x y : Block)
    (hx : bs[i]? = some x) (hy : bs[i + 1]? = some y) :
    (x.fields.mchr = y.fields.mchr →
      ((_massageBlocks bs mSel)[i]?.map fun b => b.fields.mend) =
        some (x.fields.mend + (y.fields.mstart - x.fields.mend) / 2) ∧
      ((_massageBlocks bs mSel)[i + 1]?.map fun b => b.fields.mstart) =
        some (x.fields.mend + (y.fields.mstart - x.fields.mend) / 2 + 1)) ∧
    (x.fields.hchr = y.fields.hchr →
      ((_massageBlocks bs hSel)[i]?.map fun b => b.fields.hend) =
        some (x.fields.hend + (y.fields.hstart - x.fields.hend) / 2) ∧
      ((_massageBlocks bs hSel)[i + 1]?.map fun b => b.fields.hstart) =
        some (x.fields.hend + (y.fields.hstart - x.fields.hend) / 2 + 1)) :=
  ⟨fun h => (_massageBlocks_adj mSelLaws bs i x y hx hy).1 h,
   fun h => (_massageBlocks_adj hSelLaws bs i x y hx hy).1 h⟩

/-- Witness for C5 at the spec's concrete instance: `end(block1) = 100`,
`start(block2) = 106` becomes `end(block1) = 103`, `start(block2) = 104`. -/
theorem gapSplit_witness :
    gapBlock1.fields.mchr = gapBlock2.fields.mchr ∧
    ((_massageBlocks [gapBlock1, gapBlock2] mSel)[0]?.map fun b => b.fields.mend) =
      some 103 ∧
    ((_massageBlocks [gapBlock1, gapBlock2] mSel)[1]?.map fun b => b.fields.mstart) =
      some 104 := by
  have h := (gapSplit_spec [gapBlock1, gapBlock2] 0 gapBlock1 gapBlock2 rfl rfl).1 rfl
  exact ⟨rfl, by simpa [gapBlock1, gapBlock2] using h.1,
    by simpa [gapBlock1, gapBlock2] using h.2⟩

/-! ### Claim C4: the end-to-end single-block scenario -/

/-- C4. On the three scenario pairs, no pair is filtered, the human ranks
are P3=0, P2=1, P1=2, the mouse ranks are P1=0, P2=1, P3=2, and the
pipeline produces the single block `6_1` with orientation −1, pairCount
3, mouse interval (6,10,15) and human interval (22,30,51). -/
theorem scenario_single_block :
    (preparePairs [scenarioP1, scenarioP2, scenarioP3]).map
        (fun p => (p.mchr, p.mstart, p.mend, p.iMi, p.iHi)) =
      [("6", 10, 11, 0, 2), ("6", 12, 13, 1, 1), ("6", 14, 15, 2, 0)] ∧
    (pipeline counter0 [scenarioP1, scenarioP2, scenarioP3]).1.map
        (fun b => (b.bname, b.ori, b.blockCount, b.fields.mchr, b.fields.mstart,
          b.fields.mend, b.fields.hchr, b.fields.hstart, b.fields.hend)) =
      [("6_1", -1, 3, "6", 10, 15, "22", 30, 51)] := by
  constructor <;>
    simp +decide [pipeline, preparePairs, generateBlocks, generateBlocksAux, massageBlocks,
      List.mergeSort, List.merge, removeOverlaps, assignIHi, assignIMi,
      scenarioP1, scenarioP2, scenarioP3, List.enum, List.enumFrom,
      counter0, startBlock, canMerge, extendBlock, orientationOf, _massageBlocks,
      massageStep, mSel, hSel, keyLe, mKeyLe, hKeyLe, blockMKeyLe, blockHKeyLe,
      Nat.repr, Nat.toDigits, Nat.toDigitsCore, Nat.digitChar, List.asString]

/-! ### Counterexample to claim C1 as stated: a single block is not massaged -/

/-- The pipeline run on the single pair `scenarioP1` produces one block
whose mouse start stays 10: the first (and only) block on its chromosome
does not get `start = 1`, refuting C1's single-block case. -/
theorem massage_singleton_cex :
    ((pipeline counter0 [scenarioP1]).1.mergeSort blockMKeyLe).map
        (fun b => b.fields.mstart) = [10] ∧
    ¬ partitioned mSel ((pipeline counter0 [scenarioP1]).1.mergeSort blockMKeyLe) := by
  have hmap : ((pipeline counter0 [scenarioP1]).1.mergeSort blockMKeyLe).map
      (fun b => b.fields.mstart) = [10] := by
    simp +decide [pipeline, preparePairs, generateBlocks, generateBlocksAux, massageBlocks,
      List.mergeSort, List.merge, removeOverlaps, assignIHi, assignIMi,
      scenarioP1, List.enum, List.enumFrom,
      counter0, startBlock, canMerge, extendBlock, orientationOf, _massageBlocks,
      massageStep, mSel, hSel, keyLe, mKeyLe, hKeyLe, blockMKeyLe, blockHKeyLe,
      Nat.repr, Nat.toDigits, Nat.toDigitsCore, Nat.digitChar, List.asString]
  refine ⟨hmap, ?_⟩
  rintro ⟨hhead, -⟩
  cases hL : (pipeline counter0 [scenarioP1]).1.mergeSort blockMKeyLe with
  | nil => rw [hL] at hmap; exact absurd hmap (by simp)
  | cons b t =>
    have h1 : b.fields.mstart = 1 := hhead b (by rw [hL]; rfl)
    rw [hL] at hmap
    simp only [List.map_cons, List.cons.injEq] at hmap
    rw [h1] at hmap
    exact absurd hmap.1 (by norm_num)

/-! ### Counterexample to claim C3 as stated: degenerate interval plus tied starts -/

/-- With the one-base gene `tieQ1` and the tied gene `tieQ2`, both pairs
survive both sweeps, and the pair ranked 0 in mouse order has
`mend = 9 > 5 = mstart` of the pair ranked 1 on the same chromosome:
rank order does not imply non-overlap as C3 states it. -/
theorem rank_nonoverlap_cex :
    ¬ (∀ p ∈ preparePairs [tieQ1, tieQ2], ∀ q ∈ preparePairs [tieQ1, tieQ2],
        p.mchr = q.mchr → p.iMi < q.iMi → p.mend ≤ q.mstart) := by
  intro hall
  have heq : preparePairs [tieQ1, tieQ2] =
      [{ tieQ2 with iHi := 0, iMi := 0 }, { tieQ1 with iHi := 1, iMi := 1 }] := by
    simp +decide [preparePairs, List.mergeSort, List.merge, removeOverlaps,
      assignIHi, assignIMi, tieQ1, tieQ2, List.enum, List.enumFrom,
      mSel, hSel, keyLe, mKeyLe, hKeyLe]
  rw [heq] at hall
  have h := hall _ (List.mem_cons_self _ _) _
    (List.mem_cons_of_mem _ (List.mem_cons_self _ _)) rfl (by decide)
  exact absurd h (by decide)

/-! ### Counterexample to claim C8 as stated: the naming counter persists -/

/-- Running the pipeline twice in one process (threading `mchr2count`)
yields a second block list whose id is `6_2`, not `6_1`: the outputs are
not identical, because the module-level counter is never reset. -/
theorem pipeline_rerun_cex :
    ((pipeline counter0 [scenarioP1]).1).map Block.bname = ["6_1"] ∧
    ((pipeline (pipeline counter0 [scenarioP1]).2 [scenarioP1]).1).map Block.bname =
      ["6_2"] ∧
    (pipeline (pipeline counter0 [scenarioP1]).2 [scenarioP1]).1 ≠
      (pipeline counter0 [scenarioP1]).1 := by
  have e1 : ((pipeline counter0 [scenarioP1]).1).map Block.bname = ["6_1"] := by
    simp +decide [pipeline, preparePairs, generateBlocks, generateBlocksAux, massageBlocks,
      List.mergeSort, List.merge, removeOverlaps, assignIHi, assignIMi,
      scenarioP1, List.enum, List.enumFrom,
      counter0, startBlock, canMerge, extendBlock, orientationOf, _massageBlocks,
      massageStep, mSel, hSel, keyLe, mKeyLe, hKeyLe, blockMKeyLe, blockHKeyLe,
      Nat.repr, Nat.toDigits, Nat.toDigitsCore, Nat.digitChar, List.asString]
  have e2 : ((pipeline (pipeline counter0 [scenarioP1]).2 [scenarioP1]).1).map
      Block.bname = ["6_2"] := by
    simp +decide [pipeline, preparePairs, generateBlocks, generateBlocksAux, massageBlocks,
      List.mergeSort, List.merge, removeOverlaps, assignIHi, assignIMi,
      scenarioP1, List.enum, List.enumFrom,
      counter0, startBlock, canMerge, extendBlock, orientationOf, _massageBlocks,
      massageStep, mSel, hSel, keyLe, mKeyLe, hKeyLe, blockMKeyLe, blockHKeyLe,
      Nat.repr, Nat.toDigits, Nat.toDigitsCore, Nat.digitChar, List.asString]
  refine ⟨e1, e2, fun h => ?_⟩
  rw [h, e1] at e2
  exact absurd e2 (by decide)

/-! ### Counterexample to claim C7 as stated: `forward` is not a recognized code -/

/-- A record with strand code `forward` makes the normalization loop
raise (`none`), and the whole run aborts with it, instead of the record
being normalized as C7's recognized set `{+,-,forward,reverse}` asserts. -/
theorem strand_forward_cex :
    normalizeRow fwdRow = none ∧ normalizeRows [scenarioP1, fwdRow] = none :=
  ⟨rfl, rfl⟩


/-! ### Claim C7 (amended): normalization and raises-iff behavior -/

/-- C7 as amended: the recognized strand codes are `f`, `r`, `+`, `-`
(not the words `forward`/`reverse`); a row normalizes (swapped intervals,
strands mapped to `+`/`-`) exactly when both codes are recognized, and an
unrecognized code aborts the whole run (uncaught `KeyError`), never
silently skipping the row. -/
theorem normalizeRow_spec (r : Pair) :
    (normalizeRow r = none ↔ (smap r.mstrand = none ∨ smap r.hstrand = none)) ∧
    (smap r.mstrand = none ↔
      ¬(r.mstrand = "f" ∨ r.mstrand = "r" ∨ r.mstrand = "+" ∨ r.mstrand = "-")) ∧
    (smap r.hstrand = none ↔
      ¬(r.hstrand = "f" ∨ r.hstrand = "r" ∨ r.hstrand = "+" ∨ r.hstrand = "-")) ∧
    (∀ r', normalizeRow r = some r' →
      (r'.mstrand = "+" ∨ r'.mstrand = "-") ∧ (r'.hstrand = "+" ∨ r'.hstrand = "-") ∧
      r'.mstart ≤ r'.mend ∧ r'.hstart ≤ r'.hend ∧
      r'.mstart = min r.mstart r.mend ∧ r'.mend = max r.mstart r.mend ∧
      r'.hstart = min r.hstart r.hend ∧ r'.hend = max r.hstart r.hend ∧
      r'.mchr = r.mchr ∧ r'.hchr = r.hchr ∧
      r'.msymbol = r.msymbol ∧ r'.hsymbol = r.hsymbol) ∧
    (∀ rs₁ rs₂, normalizeRow r = none → normalizeRows (rs₁ ++ r :: rs₂) = none) := by
  have hsm : ∀ s v, smap s = some v → v = "+" ∨ v = "-" := by
    intro s v h
    unfold smap at h
    split_ifs at h <;> simp_all
  refine ⟨?_, ?_, ?_, ?_, ?_⟩
  · by_cases h1 : r.mend < r.mstart <;> by_cases h2 : r.hend < r.hstart <;>
      rcases hms : smap r.mstrand with _ | ms <;>
      rcases hhs : smap r.hstrand with _ | hs <;>
      simp [normalizeRow, h1, h2, hms, hhs]
  · unfold smap
    split_ifs <;> simp_all
  · unfold smap
    split_ifs <;> simp_all
  · intro r' h
    have hm' := hsm r.mstrand
    have hh' := hsm r.hstrand
    by_cases h1 : r.mend < r.mstart <;> by_cases h2 : r.hend < r.hstart <;>
      rcases hms : smap r.mstrand with _ | ms <;>
      rcases hhs : smap r.hstrand with _ | hs <;>
      simp [normalizeRow, h1, h2, hms, hhs] at h <;>
      subst h <;>
      refine ⟨hm' _ hms, hh' _ hhs, ?_, ?_, ?_, ?_, ?_, ?_, rfl, rfl, rfl, rfl⟩ <;>
      simp <;> omega
  · intro rs₁ rs₂ hnone
    induction rs₁ with
    | nil =>
      show ((r :: rs₂).mapM normalizeRow) = none
      rw [List.mapM_cons, hnone]
      rfl
    | cons a t ih =>
      have ih' : ((t ++ r :: rs₂).mapM normalizeRow) = none := ih
      show ((a :: (t ++ r :: rs₂)).mapM normalizeRow) = none
      rw [List.mapM_cons]
      cases ha : normalizeRow a
      · rfl
      · rw [ih']; rfl

/-- Witness for C7's amended statement: the reversed `f`/`r` row
normalizes to the expected record, and the run on a list containing
`fwdRow` aborts. -/
theorem normalizeRow_spec_witness :
    ((revRowN.mstrand = "+" ∨ revRowN.mstrand = "-") ∧
      (revRowN.hstrand = "+" ∨ revRowN.hstrand = "-") ∧
      revRowN.mstart ≤ revRowN.mend ∧ revRowN.hstart ≤ revRowN.hend ∧
      revRowN.mstart = min revRow.mstart revRow.mend ∧
      revRowN.mend = max revRow.mstart revRow.mend ∧
      revRowN.hstart = min revRow.hstart revRow.hend ∧
      revRowN.hend = max revRow.hstart revRow.hend ∧
      revRowN.mchr = revRow.mchr ∧ revRowN.hchr = revRow.hchr ∧
      revRowN.msymbol = revRow.msymbol ∧ revRowN.hsymbol = revRow.hsymbol) ∧
    normalizeRows [fwdRow] = none :=
  ⟨(normalizeRow_spec revRow).2.2.2.1 revRowN rfl,
   (normalizeRow_spec fwdRow).2.2.2.2 [] [] rfl⟩


/-! ### Digit strings: `Nat.repr` has no underscore and is injective -/

theorem digitChar_ne_underscore (d : Nat) : Nat.digitChar d ≠ '_' := by
  by_cases h : d < 16
  · interval_cases d <;> decide
  · have he : Nat.digitChar d = '*' := by
      unfold Nat.digitChar
      rw [if_neg (by omega : ¬ d = 0), if_neg (by omega : ¬ d = 1),
        if_neg (by omega : ¬ d = 2), if_neg (by omega : ¬ d = 3),
        if_neg (by omega : ¬ d = 4), if_neg (by omega : ¬ d = 5),
        if_neg (by omega : ¬ d = 6), if_neg (by omega : ¬ d = 7),
        if_neg (by omega : ¬ d = 8), if_neg (by omega : ¬ d = 9),
        if_neg (by omega : ¬ d = 10), if_neg (by omega : ¬ d = 11),
        if_neg (by omega : ¬ d = 12), if_neg (by omega : ¬ d = 13),
        if_neg (by omega : ¬ d = 14), if_neg (by omega : ¬ d = 15)]
    rw [he]
    decide

theorem toDigitsCore_no_underscore :
    ∀ (fuel n : Nat) (acc : List Char), (∀ c ∈ acc, c ≠ '_') →
      ∀ c ∈ Nat.toDigitsCore 10 fuel n acc, c ≠ '_' := by
  intro fuel
  induction fuel with
  | zero => intro n acc hacc c hc; exact hacc c hc
  | succ fuel ih =>
    intro n acc hacc c hc
    unfold Nat.toDigitsCore at hc
    by_cases h : n / 10 = 0
    · rw [if_pos h] at hc
      rcases List.mem_cons.mp hc with hc | hc
      · exact hc ▸ digitChar_ne_underscore _
      · exact hacc c hc
    · rw [if_neg h] at hc
      refine ih _ _ ?_ c hc
      intro c' hc'
      rcases List.mem_cons.mp hc' with hc' | hc'
      · exact hc' ▸ digitChar_ne_underscore _
      · exact hacc c' hc'

theorem repr_no_underscore (n : Nat) : ∀ c ∈ (Nat.repr n).data, c ≠ '_' := by
  intro c hc
  have : c ∈ Nat.toDigitsCore 10 (n + 1) n [] := by
    simpa [Nat.repr, Nat.toDigits, List.asString] using hc
  exact toDigitsCore_no_underscore (n + 1) n [] (by simp) c this

theorem digitChar_val (d : Nat) (hd : d < 10) : (Nat.digitChar d).toNat - 48 = d := by
  interval_cases d <;> decide

theorem toDigitsCore_spec :
    ∀ (fuel n : Nat) (acc : List Char), n < fuel →
      ∃ ds, Nat.toDigitsCore 10 fuel n acc = ds ++ acc ∧ digitsVal ds = n := by
  intro fuel
  induction fuel with
  | zero => intro n acc h; omega
  | succ fuel ih =>
    intro n acc h
    unfold Nat.toDigitsCore
    by_cases hz : n / 10 = 0
    · rw [if_pos hz]
      have hn : n < 10 := (Nat.div_eq_zero_iff (by norm_num)).mp hz
      refine ⟨[Nat.digitChar (n % 10)], rfl, ?_⟩
      rw [Nat.mod_eq_of_lt hn]
      have hv := digitChar_val n hn
      simp [digitsVal]
      omega
    · rw [if_neg hz]
      have h10 : n / 10 < fuel := by
        have h1 : n / 10 < n := Nat.div_lt_self (by omega) (by norm_num)
        omega
      obtain ⟨ds, hds, hval⟩ := ih (n / 10) (Nat.digitChar (n % 10) :: acc) h10
      refine ⟨ds ++ [Nat.digitChar (n % 10)], by rw [hds]; simp, ?_⟩
      have hfold : digitsVal (ds ++ [Nat.digitChar (n % 10)]) =
          10 * digitsVal ds + ((Nat.digitChar (n % 10)).toNat - 48) := by
        simp [digitsVal, List.foldl_append]
      rw [hfold, hval, digitChar_val (n % 10) (Nat.mod_lt _ (by norm_num))]
      omega

theorem repr_inj {m n : Nat} (h : Nat.repr m = Nat.repr n) : m = n := by
  obtain ⟨ds₁, hds₁, hval₁⟩ := toDigitsCore_spec (m + 1) m [] (by omega)
  obtain ⟨ds₂, hds₂, hval₂⟩ := toDigitsCore_spec (n + 1) n [] (by omega)
  have hdata : (Nat.repr m).data = (Nat.repr n).data := by rw [h]
  have h1 : (Nat.repr m).data = ds₁ := by
    simp [Nat.repr, Nat.toDigits, List.asString, hds₁]
  have h2 : (Nat.repr n).data = ds₂ := by
    simp [Nat.repr, Nat.toDigits, List.asString, hds₂]
  rw [h1, h2] at hdata
  rw [← hval₁, ← hval₂, hdata]

/-! ### Uniqueness of the `"%s_%d"` block-name encoding -/

theorem append_underscore_inj :
    ∀ (c₁ c₂ d₁ d₂ : List Char), '_' ∉ d₁ → '_' ∉ d₂ →
      c₁ ++ '_' :: d₁ = c₂ ++ '_' :: d₂ → c₁ = c₂ ∧ d₁ = d₂ := by
  intro c₁
  induction c₁ with
  | nil =>
    intro c₂ d₁ d₂ h₁ h₂ h
    cases c₂ with
    | nil => simpa using h
    | cons a c₂ =>
      simp only [List.nil_append, List.cons_append, List.cons.injEq] at h
      have hm : ('_' : Char) ∈ c₂ ++ '_' :: d₂ :=
        List.mem_append_right c₂ (List.mem_cons_self _ _)
      rw [← h.2] at hm
      exact absurd hm h₁
  | cons a c₁ ih =>
    intro c₂ d₁ d₂ h₁ h₂ h
    cases c₂ with
    | nil =>
      simp only [List.nil_append, List.cons_append, List.cons.injEq] at h
      have hm : ('_' : Char) ∈ c₁ ++ '_' :: d₁ :=
        List.mem_append_right c₁ (List.mem_cons_self _ _)
      rw [h.2] at hm
      exact absurd hm h₂
    | cons b c₂ =>
      simp only [List.cons_append, List.cons.injEq] at h
      obtain ⟨hc, hd⟩ := ih c₂ d₁ d₂ h₁ h₂ h.2
      exact ⟨by rw [h.1, hc], hd⟩

theorem bname_encode_inj {c₁ c₂ : String} {n₁ n₂ : Nat}
    (h : c₁ ++ "_" ++ Nat.repr n₁ = c₂ ++ "_" ++ Nat.repr n₂) : c₁ = c₂ ∧ n₁ = n₂ := by
  have hdata : c₁.data ++ '_' :: (Nat.repr n₁).data =
      c₂.data ++ '_' :: (Nat.repr n₂).data := by
    have := congrArg String.data h
    simpa [String.data_append] using this
  have h12 := append_underscore_inj c₁.data c₂.data (Nat.repr n₁).data (Nat.repr n₂).data
    (fun hmem => repr_no_underscore n₁ _ hmem rfl)
    (fun hmem => repr_no_underscore n₂ _ hmem rfl) hdata
  exact ⟨String.ext h12.1, repr_inj (String.ext h12.2)⟩


/-! ### The per-chromosome naming counter: claim C10 -/

theorem NamesInv_step {counter : String → Nat} {ns : List (String × String)}
    (h : NamesInv counter ns) (chr : String) :
    NamesInv (fun c => if c = chr then counter chr + 1 else counter c)
      (ns ++ [(chr ++ "_" ++ Nat.repr (counter chr), chr)]) := by
  obtain ⟨h1, h2, h3, h4⟩ := h
  refine ⟨?_, ?_, ?_, ?_⟩
  · intro c
    by_cases hc : c = chr
    · subst hc
      simp [List.filter_append, h1 c]
    · simp [List.filter_append, h1 c, hc, Ne.symm hc]
  · intro c
    by_cases hc : c = chr
    · subst hc
      simp only [List.filter_append, List.map_append, List.length_append]
      have hx : List.filter (fun x => x.2 == c) [(c ++ "_" ++ Nat.repr (counter c), c)] =
          [(c ++ "_" ++ Nat.repr (counter c), c)] := by simp
      rw [hx]
      simp only [List.map_cons, List.map_nil, List.length_cons, List.length_nil]
      rw [h2 c, h1 c, List.range_succ]
      simp
    · have hx : List.filter (fun x => x.2 == c) [(chr ++ "_" ++ Nat.repr (counter chr), chr)] =
          [] := by simp [Ne.symm hc]
      simp only [List.filter_append, hx, List.append_nil]
      exact h2 c
  · intro x hx c n hn
    rcases List.mem_append.mp hx with hx | hx
    · refine h3 x hx c n ?_
      by_cases hc : c = chr
      · subst hc
        have hn' : counter c + 1 ≤ n := by simpa using hn
        omega
      · simpa [hc] using hn
    · simp only [List.mem_singleton] at hx
      subst hx
      intro heq
      obtain ⟨hc, hn'⟩ := bname_encode_inj heq
      subst hc
      simp at hn
      omega
  · rw [List.pairwise_append]
    refine ⟨h4, List.pairwise_singleton _ _, ?_⟩
    intro y hy x' hx'
    simp only [List.mem_singleton] at hx'
    subst hx'
    exact h3 y hy chr (counter chr) le_rfl

theorem generateBlocksAux_names :
    ∀ (ps : List Pair) (counter : String → Nat) (curr : Option Block)
      (ns : List (String × String)),
      NamesInv counter (ns ++ curr.toList.map nameChr) →
      NamesInv (generateBlocksAux counter curr ps).2
        (ns ++ ((generateBlocksAux counter curr ps).1.map nameChr)) := by
  intro ps
  induction ps with
  | nil =>
    intro counter curr ns h
    exact h
  | cons p rest ih =>
    intro counter curr ns h
    match curr with
    | some b =>
      by_cases hm : canMerge p (some b) = true
      · simp only [generateBlocksAux, hm, if_true]
        exact ih counter (some (extendBlock p b)) ns h
      · simp only [generateBlocksAux, hm, if_false, Bool.false_eq_true]
        have harg : NamesInv counter (ns ++ [nameChr b]) := by
          simpa [List.append_assoc] using h
        have hstep := NamesInv_step harg p.mchr
        have := ih (startBlock counter p).2 (some (startBlock counter p).1)
          (ns ++ [nameChr b]) (by simpa [List.append_assoc] using hstep)
        simpa [List.append_assoc] using this
    | none =>
      simp only [generateBlocksAux]
      have harg : NamesInv counter ns := by simpa using h
      have hstep := NamesInv_step harg p.mchr
      exact ih (startBlock counter p).2 (some (startBlock counter p).1) ns
        (by simpa using hstep)

theorem generateRuns_names :
    ∀ (pss : List (List Pair)) (counter : String → Nat) (ns : List (String × String)),
      NamesInv counter ns →
      NamesInv (generateRuns counter pss).2
        (ns ++ (generateRuns counter pss).1.map nameChr) := by
  intro pss
  induction pss with
  | nil =>
    intro c ns h
    simpa [generateRuns] using h
  | cons ps rest ih =>
    intro c ns h
    have h1 := generateBlocksAux_names ps c none ns (by simpa using h)
    have h2 := ih (generateBlocks c ps).2
      (ns ++ (generateBlocks c ps).1.map nameChr) h1
    simpa [generateRuns, List.append_assoc] using h2

theorem filterChr_map (l : List Block) (chr : String) :
    (l.filter (fun b => b.fields.mchr == chr)).map Block.bname =
      ((l.map nameChr).filter (fun x => x.2 == chr)).map Prod.fst := by
  induction l with
  | nil => rfl
  | cons b t ih =>
    by_cases h : b.fields.mchr = chr <;> simp [nameChr, h, ih]

theorem filterChr_length (l : List Block) (chr : String) :
    (l.filter (fun b => b.fields.mchr == chr)).length =
      ((l.map nameChr).filter (fun x => x.2 == chr)).length := by
  have := congrArg List.length (filterChr_map l chr)
  simpa using this

/-- C10. Within one process (any sequence of `generateBlocks` invocations
threading the never-reset `mchr2count` state, starting fresh), the block
names on each mouse chromosome `chr` read exactly `chr_1, chr_2, chr_3, ...`
in creation order, and all block names are pairwise distinct. -/
theorem block_names_spec (pss : List (List Pair)) :
    (∀ chr : String,
      (((generateRuns counter0 pss).1.filter
          (fun b => b.fields.mchr == chr)).map Block.bname) =
        (List.range (((generateRuns counter0 pss).1.filter
            (fun b => b.fields.mchr == chr)).length)).map
          (fun i => chr ++ "_" ++ Nat.repr (i + 1))) ∧
    List.Pairwise (fun b c => b.bname ≠ c.bname) (generateRuns counter0 pss).1 := by
  have h0 : NamesInv counter0 [] :=
    ⟨fun chr => rfl, fun chr => rfl, by simp, List.Pairwise.nil⟩
  have h := generateRuns_names pss counter0 [] h0
  rw [List.nil_append] at h
  obtain ⟨-, h2, -, h4⟩ := h
  constructor
  · intro chr
    rw [filterChr_map, filterChr_length]
    exact h2 chr
  · rw [List.pairwise_map] at h4
    exact h4


/-! ### The instrumented generator refines the real one -/

theorem generateBlocksGAux_fst :
    ∀ (ps : List Pair) (counter : String → Nat) (curr : Option (Block × List Pair)),
      ((generateBlocksGAux counter curr ps).1.map Prod.fst =
        (generateBlocksAux counter (curr.map Prod.fst) ps).1) ∧
      ((generateBlocksGAux counter curr ps).2 =
        (generateBlocksAux counter (curr.map Prod.fst) ps).2) := by
  intro ps
  induction ps with
  | nil =>
    intro counter curr
    cases curr <;> simp [generateBlocksGAux, generateBlocksAux]
  | cons p rest ih =>
    intro counter curr
    match curr with
    | some e =>
      by_cases hm : canMerge p (some e.1) = true
      · simpa [generateBlocksGAux, generateBlocksAux, hm] using
          ih counter (some (extendBlock p e.1, e.2 ++ [p]))
      · have h := ih (startBlock counter p).2 (some ((startBlock counter p).1, [p]))
        simp only [Option.map_some'] at h
        simp only [generateBlocksGAux, generateBlocksAux, hm, if_false,
          Bool.false_eq_true, List.map_cons, Option.map_some']
        exact ⟨by rw [h.1], h.2⟩
    | none =>
      simpa [generateBlocksGAux, generateBlocksAux] using
        ih (startBlock counter p).2 (some ((startBlock counter p).1, [p]))

/-! ### Claim C6: block orientation -/

theorem generateBlocksGAux_ori :
    ∀ (ps : List Pair) (counter : String → Nat) (curr : Option (Block × List Pair)),
      (∀ e, curr = some e →
        (e.1.ori = 1 ∨ e.1.ori = -1) ∧
        (e.1.ori = 1 ↔ ∀ p ∈ e.2, p.mstrand = p.hstrand)) →
      ∀ e ∈ (generateBlocksGAux counter curr ps).1,
        (e.1.ori = 1 ∨ e.1.ori = -1) ∧
        (e.1.ori = 1 ↔ ∀ p ∈ e.2, p.mstrand = p.hstrand) := by
  intro ps
  induction ps with
  | nil =>
    intro counter curr hcurr e he
    cases curr with
    | none => simp [generateBlocksGAux] at he
    | some e₀ =>
      simp only [generateBlocksGAux, Option.toList_some, List.mem_singleton] at he
      exact he ▸ hcurr e₀ rfl
  | cons p rest ih =>
    intro counter curr hcurr e he
    match curr with
    | some e₀ =>
      by_cases hm : canMerge p (some e₀.1) = true
      · rw [show generateBlocksGAux counter (some e₀) (p :: rest) =
          generateBlocksGAux counter (some (extendBlock p e₀.1, e₀.2 ++ [p])) rest
          from by simp [generateBlocksGAux, hm]] at he
        refine ih counter _ ?_ e he
        intro e' he'
        injection he' with he'
        subst he'
        obtain ⟨ho, hiff⟩ := hcurr e₀ rfl
        have hori : e₀.1.ori = orientationOf p := by
          simp only [canMerge, Bool.and_eq_true, beq_iff_eq] at hm
          exact hm.1.2
        have hext : (extendBlock p e₀.1).ori = e₀.1.ori := rfl
        constructor
        · rw [hext]; exact ho
        · rw [hext]
          constructor
          · intro h1 q hq
            rcases List.mem_append.mp hq with hq | hq
            · exact hiff.mp h1 q hq
            · rw [List.mem_singleton] at hq
              subst hq
              have : orientationOf q = 1 := by rw [← hori, h1]
              by_contra hne
              simp [orientationOf, hne] at this
          · intro h1
            exact hiff.mpr fun q hq => h1 q (List.mem_append_left _ hq)
      · rw [show generateBlocksGAux counter (some e₀) (p :: rest) =
          (e₀ :: (generateBlocksGAux (startBlock counter p).2
            (some ((startBlock counter p).1, [p])) rest).1,
           (generateBlocksGAux (startBlock counter p).2
            (some ((startBlock counter p).1, [p])) rest).2)
          from by simp [generateBlocksGAux, hm]] at he
        rcases List.mem_cons.mp he with he | he
        · exact he ▸ hcurr e₀ rfl
        · refine ih _ _ ?_ e he
          intro e' he'
          injection he' with he'
          subst he'
          refine ⟨?_, ?_⟩
          · simp only [startBlock, orientationOf]
            split <;> simp
          · simp only [startBlock, orientationOf, List.mem_singleton]
            constructor
            · intro h1 q hq
              subst hq
              by_contra hne
              simp [hne] at h1
            · intro h1
              simp [h1 p rfl]
    | none =>
      rw [show generateBlocksGAux counter none (p :: rest) =
        generateBlocksGAux (startBlock counter p).2
          (some ((startBlock counter p).1, [p])) rest
        from by simp [generateBlocksGAux]] at he
      refine ih _ _ ?_ e he
      intro e' he'
      injection he' with he'
      subst he'
      refine ⟨?_, ?_⟩
      · simp only [startBlock, orientationOf]
        split <;> simp
      · simp only [startBlock, orientationOf, List.mem_singleton]
        constructor
        · intro h1 q hq
          subst hq
          by_contra hne
          simp [hne] at h1
        · intro h1
          simp [h1 p rfl]

theorem massageBlocks_nameOriCount (bs : List Block) :
    ((massageBlocks bs).map (fun b => (b.bname, b.ori, b.blockCount))).Perm
      (bs.map (fun b => (b.bname, b.ori, b.blockCount))) := by
  have e1 : ∀ (l : List Block) (sel : GSel),
      (_massageBlocks l sel).map (fun b => (b.bname, b.ori, b.blockCount)) =
        l.map (fun b => (b.bname, b.ori, b.blockCount)) := fun l sel =>
    _massageBlocks_map sel (fun b => (b.bname, b.ori, b.blockCount))
      (fun b v => rfl) (fun b v => rfl) l
  unfold massageBlocks
  have p1 := (List.mergeSort_perm
    (_massageBlocks ((_massageBlocks bs mSel).mergeSort blockHKeyLe) hSel)
    blockMKeyLe).map (fun b => (b.bname, b.ori, b.blockCount))
  refine p1.trans ?_
  rw [e1]
  have p2 := (List.mergeSort_perm (_massageBlocks bs mSel) blockHKeyLe).map
    (fun b => (b.bname, b.ori, b.blockCount))
  refine p2.trans ?_
  rw [e1]

/-- C6. Orientation is `+1` exactly when every pair merged into the block
(the instrumented generator's ghost list) has equal strands, and `-1`
otherwise; it is fixed by `startBlock` from the first pair, never changed
by `extendBlock`, and `massageBlocks` keeps every block's name,
orientation, and pair count (as a permutation). -/
theorem orientation_invariant (counter : String → Nat) (ps : List Pair) (bs : List Block) :
    ((generateBlocksG counter ps).1.map Prod.fst = (generateBlocks counter ps).1) ∧
    (∀ e ∈ (generateBlocksG counter ps).1,
      (e.1.ori = 1 ∨ e.1.ori = -1) ∧
      (e.1.ori = 1 ↔ ∀ p ∈ e.2, p.mstrand = p.hstrand)) ∧
    (∀ p, (startBlock counter p).1.ori = orientationOf p) ∧
    (∀ p b, (extendBlock p b).ori = b.ori) ∧
    ((massageBlocks bs).map (fun b => (b.bname, b.ori, b.blockCount))).Perm
      (bs.map (fun b => (b.bname, b.ori, b.blockCount))) :=
  ⟨(generateBlocksGAux_fst ps counter none).1,
   generateBlocksGAux_ori ps counter none (by rintro e ⟨⟩),
   fun p => rfl, fun p b => rfl,
   massageBlocks_nameOriCount bs⟩


/-! ### Claim C8 (amended): determinism up to block names -/

theorem eraseName_fields {b c : Block} (h : eraseName b = eraseName c) :
    b.ori = c.ori ∧ b.blockCount = c.blockCount ∧ b.fields = c.fields := by
  simp only [eraseName, Prod.mk.injEq] at h
  exact h

theorem canMerge_eraseName (p : Pair) {b c : Block} (h : eraseName b = eraseName c) :
    canMerge p (some b) = canMerge p (some c) := by
  obtain ⟨h1, -, h3⟩ := eraseName_fields h
  simp [canMerge, h1, h3]

theorem extendBlock_eraseName (p : Pair) {b c : Block} (h : eraseName b = eraseName c) :
    eraseName (extendBlock p b) = eraseName (extendBlock p c) := by
  obtain ⟨h1, h2, h3⟩ := eraseName_fields h
  simp [eraseName, extendBlock, h1, h2, h3]

theorem generateBlocksAux_eraseName :
    ∀ (ps : List Pair) (c₁ c₂ : String → Nat) (curr₁ curr₂ : Option Block),
      curr₁.map eraseName = curr₂.map eraseName →
      ((generateBlocksAux c₁ curr₁ ps).1.map eraseName =
        (generateBlocksAux c₂ curr₂ ps).1.map eraseName) := by
  intro ps
  induction ps with
  | nil =>
    intro c₁ c₂ curr₁ curr₂ h
    cases curr₁ <;> cases curr₂ <;> simp_all [generateBlocksAux]
  | cons p rest ih =>
    intro c₁ c₂ curr₁ curr₂ h
    cases curr₁ with
    | none =>
      cases curr₂ with
      | none =>
        simp only [generateBlocksAux]
        exact ih _ _ _ _ rfl
      | some b₂ => simp at h
    | some b₁ =>
      cases curr₂ with
      | none => simp at h
      | some b₂ =>
        simp only [Option.map_some', Option.some.injEq] at h
        have hcm := canMerge_eraseName p h
        by_cases hm : canMerge p (some b₁) = true
        · have hm₂ : canMerge p (some b₂) = true := hcm ▸ hm
          simp only [generateBlocksAux, hm, hm₂, if_true]
          exact ih _ _ _ _ (by simp [extendBlock_eraseName p h])
        · have hm₂ : ¬ canMerge p (some b₂) = true := by rw [← hcm]; exact hm
          simp only [generateBlocksAux, hm, hm₂, if_false, Bool.false_eq_true,
            List.map_cons]
          exact congrArg₂ List.cons h (ih _ _ _ _ rfl)

theorem massageStep_eraseName (sel : GSel) :
    ∀ (rest₁ rest₂ : List Block) (cb₁ cb₂ : Block),
      eraseName cb₁ = eraseName cb₂ →
      rest₁.map eraseName = rest₂.map eraseName →
      (massageStep sel cb₁ rest₁).map eraseName =
        (massageStep sel cb₂ rest₂).map eraseName := by
  intro rest₁
  induction rest₁ with
  | nil =>
    intro rest₂ cb₁ cb₂ h hr
    cases rest₂ with
    | nil => simpa [massageStep] using h
    | cons _ _ => simp at hr
  | cons nb₁ t₁ ih =>
    intro rest₂ cb₁ cb₂ h hr
    cases rest₂ with
    | nil => simp at hr
    | cons nb₂ t₂ =>
      simp only [List.map_cons, List.cons.injEq] at hr
      obtain ⟨hnb, ht⟩ := hr
      obtain ⟨ho₁, hc₁, hf₁⟩ := eraseName_fields h
      obtain ⟨ho₂, hc₂, hf₂⟩ := eraseName_fields hnb
      by_cases hchr : sel.chr cb₁.fields ≠ sel.chr nb₁.fields
      · have hchr₂ : sel.chr cb₂.fields ≠ sel.chr nb₂.fields := by
          rw [← hf₁, ← hf₂]
          exact hchr
        simp only [massageStep, if_pos hchr, if_pos hchr₂, List.map_cons]
        refine congrArg₂ List.cons h (ih t₂ _ _ ?_ ht)
        simp [eraseName, ho₂, hc₂, hf₂]
      · have hchr₂ : ¬ sel.chr cb₂.fields ≠ sel.chr nb₂.fields := by
          rw [← hf₁, ← hf₂]
          exact hchr
        simp only [massageStep, if_neg hchr, if_neg hchr₂, List.map_cons]
        refine congrArg₂ List.cons ?_ (ih t₂ _ _ ?_ ht)
        · simp [eraseName, ho₁, hc₁, hf₁, hf₂]
        · simp [eraseName, ho₂, hc₂, hf₁, hf₂]

theorem _massageBlocks_eraseName (sel : GSel) :
    ∀ (bs₁ bs₂ : List Block), bs₁.map eraseName = bs₂.map eraseName →
      (_massageBlocks bs₁ sel).map eraseName =
        (_massageBlocks bs₂ sel).map eraseName := by
  intro bs₁ bs₂ h
  match bs₁, bs₂ with
  | [], [] => rfl
  | [], _ :: _ => simp at h
  | _ :: _, [] => simp at h
  | [b₁], [b₂] => simpa [_massageBlocks] using h
  | [b₁], _ :: _ :: _ =>
    have := congrArg List.length h
    simp at this
  | _ :: _ :: _, [b₂] =>
    have := congrArg List.length h
    simp at this
  | b₁ :: nb₁ :: t₁, b₂ :: nb₂ :: t₂ =>
    simp only [List.map_cons, List.cons.injEq] at h
    show (massageStep sel _ (nb₁ :: t₁)).map eraseName =
      (massageStep sel _ (nb₂ :: t₂)).map eraseName
    apply massageStep_eraseName
    · obtain ⟨ho, hc, hf⟩ := eraseName_fields h.1
      simp [eraseName, ho, hc, hf]
    · simp [h.2.1, h.2.2]

theorem mergeSort_eraseName_m (l : List Block) :
    (l.mergeSort blockMKeyLe).map eraseName = (l.map eraseName).mergeSort eKeyM :=
  List.map_mergeSort (fun _ _ _ _ => rfl)

theorem mergeSort_eraseName_h (l : List Block) :
    (l.mergeSort blockHKeyLe).map eraseName = (l.map eraseName).mergeSort eKeyH :=
  List.map_mergeSort (fun _ _ _ _ => rfl)

theorem massageBlocks_eraseName (bs₁ bs₂ : List Block)
    (h : bs₁.map eraseName = bs₂.map eraseName) :
    (massageBlocks bs₁).map eraseName = (massageBlocks bs₂).map eraseName := by
  unfold massageBlocks
  have h1 := _massageBlocks_eraseName mSel bs₁ bs₂ h
  have h2 : ((_massageBlocks bs₁ mSel).mergeSort blockHKeyLe).map eraseName =
      ((_massageBlocks bs₂ mSel).mergeSort blockHKeyLe).map eraseName := by
    rw [mergeSort_eraseName_h, mergeSort_eraseName_h, h1]
  have h3 := _massageBlocks_eraseName hSel _ _ h2
  rw [mergeSort_eraseName_m, mergeSort_eraseName_m, h3]

/-- C8 as amended: the pipeline is fully deterministic, and its output
does not depend on the inherited `mchr2count` state except through the
block names: two runs on the same input from any two counter states
produce block lists that agree on orientation, pair count, and every
coordinate field, differing only in the name suffixes (which continue
from the leftover state, as `pipeline_rerun_cex` shows concretely). -/
theorem pipeline_counter_independence (allPairs : List Pair) (c₁ c₂ : String → Nat) :
    ((pipeline c₁ allPairs).1).map eraseName =
      ((pipeline c₂ allPairs).1).map eraseName :=
  massageBlocks_eraseName _ _
    (generateBlocksAux_eraseName (preparePairs allPairs) c₁ c₂ none none rfl)


/-! ### The overlap filter: sublist, chain, and pairwise non-overlap -/

theorem removeOverlaps_sublist (sel : GSel) :
    ∀ (l : List Pair) (last : Option Pair), List.Sublist (removeOverlaps sel last l) l := by
  intro l
  induction l with
  | nil => intro last; simp [removeOverlaps]
  | cons p rest ih =>
    intro last
    cases last with
    | none => exact (ih (some p)).cons₂ p
    | some lp =>
      by_cases hg : (sel.chr lp == sel.chr p && decide (sel.gend lp > sel.gstart p)) = true
      · have hred : removeOverlaps sel (some lp) (p :: rest) =
            removeOverlaps sel (some lp) rest := if_pos hg
        rw [hred]
        exact (ih (some lp)).trans (List.sublist_cons_self _ _)
      · have hred : removeOverlaps sel (some lp) (p :: rest) =
            p :: removeOverlaps sel (some p) rest := if_neg hg
        rw [hred]
        exact (ih (some p)).cons₂ p

theorem removeOverlaps_chain (sel : GSel) :
    ∀ (l : List Pair) (last : Option Pair),
      List.Chain' (ovOk sel) (removeOverlaps sel last l) ∧
      (∀ lp q, last = some lp → (removeOverlaps sel last l).head? = some q → ovOk sel lp q) := by
  intro l
  induction l with
  | nil =>
    intro last
    exact ⟨List.chain'_nil, fun lp q _ hq => by simp [removeOverlaps] at hq⟩
  | cons p rest ih =>
    intro last
    cases last with
    | none =>
      constructor
      · show List.Chain' (ovOk sel) (p :: removeOverlaps sel (some p) rest)
        rw [List.chain'_cons']
        exact ⟨fun y hy => (ih (some p)).2 p y rfl hy, (ih (some p)).1⟩
      · intro lp q hlast hq
        exact absurd hlast (by simp)
    | some lp =>
      by_cases hg : (sel.chr lp == sel.chr p && decide (sel.gend lp > sel.gstart p)) = true
      · have hred : removeOverlaps sel (some lp) (p :: rest) =
            removeOverlaps sel (some lp) rest := if_pos hg
        rw [hred]
        exact ih (some lp)
      · have hred : removeOverlaps sel (some lp) (p :: rest) =
            p :: removeOverlaps sel (some p) rest := if_neg hg
        rw [hred]
        constructor
        · rw [List.chain'_cons']
          exact ⟨fun y hy => (ih (some p)).2 p y rfl hy, (ih (some p)).1⟩
        · intro lp' q hlast hq
          injection hlast with hlast
          subst hlast
          simp only [List.head?_cons, Option.some.injEq] at hq
          subst hq
          intro hchr
          simp only [Bool.and_eq_true, beq_iff_eq, decide_eq_true_eq, not_and,
            gt_iff_lt, not_lt] at hg
          exact hg hchr

theorem chain_nonoverlap_head (sel : GSel) :
    ∀ (l : List Pair) (a : Pair),
      (∀ p ∈ a :: l, sel.gstart p ≤ sel.gend p) →
      List.Pairwise (keyLeP sel) (a :: l) →
      List.Chain' (ovOk sel) (a :: l) →
      ∀ b ∈ l, ovOk sel a b := by
  intro l
  induction l with
  | nil => intro a _ _ _ b hb; simp at hb
  | cons c l' ih =>
    intro a helem hpw hch b hb
    rw [List.pairwise_cons] at hpw
    rw [List.chain'_cons] at hch
    rcases List.mem_cons.mp hb with hb | hb
    · exact hb ▸ hch.1
    · intro hchr
      -- chromosome sandwich: chr a ≤ chr c ≤ chr b and chr a = chr b
      have hac : keyLeP sel a c := hpw.1 c (List.mem_cons_self _ _)
      have hcb : keyLeP sel c b := by
        rw [List.pairwise_cons] at hpw
        exact (hpw.2).1 b hb
      have hchr_ac : sel.chr a = sel.chr c := by
        rcases hac with h | ⟨h, -⟩
        · rcases hcb with h' | ⟨h', -⟩
          · exact absurd (hchr ▸ lt_trans h h') (lt_irrefl _)
          · exact absurd (hchr ▸ (h'.symm ▸ h : sel.chr a < sel.chr b)) (lt_irrefl _)
        · exact h
      have h1 : sel.gend a ≤ sel.gstart c := hch.1 hchr_ac
      have h2 : sel.gstart c ≤ sel.gend c := helem c (by simp)
      have h3 : sel.gend c ≤ sel.gstart b := by
        refine ih c (fun p hp => helem p (List.mem_cons_of_mem _ hp)) hpw.2 hch.2 b hb ?_
        rw [← hchr_ac, hchr]
      omega

theorem chain_nonoverlap_pairwise (sel : GSel) :
    ∀ (l : List Pair),
      (∀ p ∈ l, sel.gstart p ≤ sel.gend p) →
      List.Pairwise (keyLeP sel) l →
      List.Chain' (ovOk sel) l →
      List.Pairwise (ovOk sel) l := by
  intro l
  induction l with
  | nil => intro _ _ _; exact List.Pairwise.nil
  | cons a l' ih =>
    intro helem hpw hch
    rw [List.pairwise_cons]
    refine ⟨chain_nonoverlap_head sel l' a helem hpw hch, ?_⟩
    exact ih (fun p hp => helem p (List.mem_cons_of_mem _ hp))
      ((List.pairwise_cons.mp hpw).2) ((List.chain'_cons'.mp hch).2)


/-! ### Rank assignment: positions and transported pairwise facts -/

theorem mem_enumFrom_le {α : Type} :
    ∀ (l : List α) (n : Nat), ∀ x ∈ l.enumFrom n, n ≤ x.1 := by
  intro l
  induction l with
  | nil => intro n x hx; simp at hx
  | cons a t ih =>
    intro n x hx
    rcases List.mem_cons.mp hx with hx | hx
    · subst hx; exact le_refl n
    · exact le_trans (Nat.le_succ n) (ih (n + 1) x hx)

theorem pairwise_fst_lt_enumFrom {α : Type} :
    ∀ (l : List α) (n : Nat),
      List.Pairwise (fun a b => a.1 < b.1) (l.enumFrom n) := by
  intro l
  induction l with
  | nil => intro n; exact List.Pairwise.nil
  | cons a t ih =>
    intro n
    rw [List.enumFrom_cons, List.pairwise_cons]
    exact ⟨fun x hx => lt_of_lt_of_le (Nat.lt_succ_self n) (mem_enumFrom_le t (n + 1) x hx),
      ih (n + 1)⟩

theorem assignIHi_pairwise {R : Pair → Pair → Prop}
    (hR : ∀ (p q : Pair) (i j : Int), R p q → R { p with iHi := i } { q with iHi := j })
    {l : List Pair} (h : List.Pairwise R l) : List.Pairwise R (assignIHi l) := by
  unfold assignIHi
  rw [List.pairwise_map]
  have h2 : List.Pairwise (fun a b : Nat × Pair => R a.2 b.2) l.enum := by
    rw [show l = l.enum.map Prod.snd from (List.enumFrom_map_snd 0 l).symm] at h
    exact List.pairwise_map.mp h
  exact h2.imp (fun {a b} hab => hR _ _ _ _ hab)

theorem assignIMi_pairwise {R : Pair → Pair → Prop}
    (hR : ∀ (p q : Pair) (i j : Int), R p q → R { p with iMi := i } { q with iMi := j })
    {l : List Pair} (h : List.Pairwise R l) : List.Pairwise R (assignIMi l) := by
  unfold assignIMi
  rw [List.pairwise_map]
  have h2 : List.Pairwise (fun a b : Nat × Pair => R a.2 b.2) l.enum := by
    rw [show l = l.enum.map Prod.snd from (List.enumFrom_map_snd 0 l).symm] at h
    exact List.pairwise_map.mp h
  exact h2.imp (fun {a b} hab => hR _ _ _ _ hab)

theorem assignIHi_rank (l : List Pair) :
    List.Pairwise (fun p q => p.iHi < q.iHi) (assignIHi l) := by
  unfold assignIHi
  rw [List.pairwise_map]
  exact (pairwise_fst_lt_enumFrom l 0).imp
    (fun {a b} hab => by simpa using Int.ofNat_lt.mpr hab)

theorem assignIMi_rank (l : List Pair) :
    List.Pairwise (fun p q => p.iMi < q.iMi) (assignIMi l) := by
  unfold assignIMi
  rw [List.pairwise_map]
  exact (pairwise_fst_lt_enumFrom l 0).imp
    (fun {a b} hab => by simpa using Int.ofNat_lt.mpr hab)

theorem assignIHi_mem {l : List Pair} {p : Pair} (hp : p ∈ assignIHi l) :
    ∃ q ∈ l, ∃ i : Int, p = { q with iHi := i } := by
  unfold assignIHi at hp
  obtain ⟨x, hx, hxp⟩ := List.mem_map.mp hp
  refine ⟨x.2, ?_, x.1, hxp.symm⟩
  have := List.mem_map_of_mem Prod.snd hx
  simpa [List.enum, List.enumFrom_map_snd] using this

theorem assignIMi_mem {l : List Pair} {p : Pair} (hp : p ∈ assignIMi l) :
    ∃ q ∈ l, ∃ i : Int, p = { q with iMi := i } := by
  unfold assignIMi at hp
  obtain ⟨x, hx, hxp⟩ := List.mem_map.mp hp
  refine ⟨x.2, ?_, x.1, hxp.symm⟩
  have := List.mem_map_of_mem Prod.snd hx
  simpa [List.enum, List.enumFrom_map_snd] using this


/-! ### Facts about the fully prepared pair list -/

theorem coordEq_refl (p : Pair) : coordEq p p :=
  ⟨rfl, rfl, rfl, rfl, rfl, rfl, rfl, rfl⟩

theorem coordEq_trans {p q r : Pair} (h1 : coordEq p q) (h2 : coordEq q r) : coordEq p r := by
  obtain ⟨a1, a2, a3, a4, a5, a6, a7, a8⟩ := h1
  obtain ⟨b1, b2, b3, b4, b5, b6, b7, b8⟩ := h2
  exact ⟨a1.trans b1, a2.trans b2, a3.trans b3, a4.trans b4, a5.trans b5,
    a6.trans b6, a7.trans b7, a8.trans b8⟩

theorem coordEq_setIHi (q : Pair) (i : Int) : coordEq { q with iHi := i } q :=
  ⟨rfl, rfl, rfl, rfl, rfl, rfl, rfl, rfl⟩

theorem coordEq_setIMi (q : Pair) (i : Int) : coordEq { q with iMi := i } q :=
  ⟨rfl, rfl, rfl, rfl, rfl, rfl, rfl, rfl⟩

theorem coordEq_val {p q : Pair} (hc : coordEq p q)
    (hv : q.mstart < q.mend ∧ q.hstart < q.hend) :
    p.mstart < p.mend ∧ p.hstart < p.hend := by
  obtain ⟨-, h2, h3, -, h5, h6, -, -⟩ := hc
  rw [h2, h3, h5, h6]
  exact hv

theorem mKeyLe_trans : ∀ (a b c : Pair), mKeyLe a b → mKeyLe b c → mKeyLe a c :=
  keyLe_trans mSel

theorem mKeyLe_total : ∀ (a b : Pair), mKeyLe a b || mKeyLe b a :=
  keyLe_total mSel

theorem hKeyLe_trans : ∀ (a b c : Pair), hKeyLe a b → hKeyLe b c → hKeyLe a c :=
  keyLe_trans hSel

theorem hKeyLe_total : ∀ (a b : Pair), hKeyLe a b || hKeyLe b a :=
  keyLe_total hSel

theorem preparePairs_facts (input : List Pair)
    (hsort : List.Pairwise (fun p q => mKeyLe p q = true) input)
    (hval : ∀ p ∈ input, p.mstart < p.mend ∧ p.hstart < p.hend) :
    (∀ p ∈ preparePairs input, ∃ q ∈ input, coordEq p q) ∧
    List.Pairwise (keyLeP mSel) (preparePairs input) ∧
    List.Pairwise (fun p q => p.iMi < q.iMi) (preparePairs input) ∧
    List.Pairwise (ovOk mSel) (preparePairs input) ∧
    List.Pairwise (fun p q => p.hchr = q.hchr →
      (p.iHi ≠ q.iHi ∧ (p.iHi < q.iHi → p.hend ≤ q.hstart) ∧
        (q.iHi < p.iHi → q.hend ≤ p.hstart))) (preparePairs input) := by
  have hpp : preparePairs input =
      assignIMi ((assignIHi (removeOverlaps hSel none
        ((removeOverlaps mSel none input).mergeSort hKeyLe))).mergeSort mKeyLe) := rfl
  rw [hpp]
  set t1 := removeOverlaps mSel none input with ht1
  set t2 := t1.mergeSort hKeyLe with ht2
  set t3 := removeOverlaps hSel none t2 with ht3
  set t4 := assignIHi t3 with ht4
  set t5 := t4.mergeSort mKeyLe with ht5
  -- stage 1: mouse sweep
  have t1_sub : List.Sublist t1 input := removeOverlaps_sublist mSel input none
  have t1_mem : ∀ p ∈ t1, ∃ q ∈ input, coordEq p q :=
    fun p hp => ⟨p, t1_sub.subset hp, coordEq_refl p⟩
  have t1_val : ∀ p ∈ t1, p.mstart < p.mend ∧ p.hstart < p.hend :=
    fun p hp => hval p (t1_sub.subset hp)
  have t1_sorted : List.Pairwise (keyLeP mSel) t1 :=
    List.Pairwise.sublist t1_sub (hsort.imp (fun {p q} h => (keyLe_iff mSel p q).mp h))
  have t1_ov : List.Pairwise (ovOk mSel) t1 :=
    chain_nonoverlap_pairwise mSel t1 (fun p hp => le_of_lt (t1_val p hp).1)
      t1_sorted (removeOverlaps_chain mSel input none).1
  have t1_msym : List.Pairwise
      (fun p q => p.mchr = q.mchr → (p.mend ≤ q.mstart ∨ q.mend ≤ p.mstart)) t1 :=
    t1_ov.imp (fun {p q} h hc => Or.inl (h hc))
  -- stage 2: re-sort by human key
  have t2_perm : t2.Perm t1 := List.mergeSort_perm t1 hKeyLe
  have t2_mem : ∀ p ∈ t2, ∃ q ∈ input, coordEq p q :=
    fun p hp => t1_mem p (t2_perm.mem_iff.mp hp)
  have t2_val : ∀ p ∈ t2, p.mstart < p.mend ∧ p.hstart < p.hend :=
    fun p hp => t1_val p (t2_perm.mem_iff.mp hp)
  have t2_msym : List.Pairwise
      (fun p q => p.mchr = q.mchr → (p.mend ≤ q.mstart ∨ q.mend ≤ p.mstart)) t2 :=
    (t2_perm.pairwise_iff (fun {p q} h hc =>
      (h hc.symm).symm)).mpr t1_msym
  have t2_sorted : List.Pairwise (keyLeP hSel) t2 :=
    (List.sorted_mergeSort hKeyLe_trans hKeyLe_total t1).imp
      (fun {p q} h => (keyLe_iff hSel p q).mp h)
  -- stage 3: human sweep
  have t3_sub : List.Sublist t3 t2 := removeOverlaps_sublist hSel t2 none
  have t3_mem : ∀ p ∈ t3, ∃ q ∈ input, coordEq p q :=
    fun p hp => t2_mem p (t3_sub.subset hp)
  have t3_val : ∀ p ∈ t3, p.mstart < p.mend ∧ p.hstart < p.hend :=
    fun p hp => t2_val p (t3_sub.subset hp)
  have t3_msym : List.Pairwise
      (fun p q => p.mchr = q.mchr → (p.mend ≤ q.mstart ∨ q.mend ≤ p.mstart)) t3 :=
    List.Pairwise.sublist t3_sub t2_msym
  have t3_sorted : List.Pairwise (keyLeP hSel) t3 :=
    List.Pairwise.sublist t3_sub t2_sorted
  have t3_hov : List.Pairwise (ovOk hSel) t3 :=
    chain_nonoverlap_pairwise hSel t3 (fun p hp => le_of_lt (t3_val p hp).2)
      t3_sorted (removeOverlaps_chain hSel t2 none).1
  -- stage 4: assign human ranks
  have t4_mem : ∀ p ∈ t4, ∃ q ∈ input, coordEq p q := by
    intro p hp
    obtain ⟨q, hq, i, hpq⟩ := assignIHi_mem hp
    obtain ⟨r, hr, hcq⟩ := t3_mem q hq
    exact ⟨r, hr, coordEq_trans (hpq ▸ coordEq_setIHi q i) hcq⟩
  have t4_val : ∀ p ∈ t4, p.mstart < p.mend ∧ p.hstart < p.hend := by
    intro p hp
    obtain ⟨q, hq, i, hpq⟩ := assignIHi_mem hp
    exact coordEq_val (hpq ▸ coordEq_setIHi q i) (t3_val q hq)
  have t4_msym : List.Pairwise
      (fun p q => p.mchr = q.mchr → (p.mend ≤ q.mstart ∨ q.mend ≤ p.mstart)) t4 :=
    assignIHi_pairwise (fun p q i j h => h) t3_msym
  have t4_hov : List.Pairwise (ovOk hSel) t4 :=
    assignIHi_pairwise (fun p q i j h => h) t3_hov
  have t4_rh : List.Pairwise (fun p q => p.hchr = q.hchr →
      (p.iHi ≠ q.iHi ∧ (p.iHi < q.iHi → p.hend ≤ q.hstart) ∧
        (q.iHi < p.iHi → q.hend ≤ p.hstart))) t4 := by
    refine ((assignIHi_rank t3).and t4_hov).imp (fun {p q} h hc => ?_)
    exact ⟨ne_of_lt h.1, fun _ => h.2 hc, fun hlt => absurd h.1 (lt_asymm hlt)⟩
  -- stage 5: re-sort by mouse key
  have t5_perm : t5.Perm t4 := List.mergeSort_perm t4 mKeyLe
  have t5_mem : ∀ p ∈ t5, ∃ q ∈ input, coordEq p q :=
    fun p hp => t4_mem p (t5_perm.mem_iff.mp hp)
  have t5_val : ∀ p ∈ t5, p.mstart < p.mend ∧ p.hstart < p.hend :=
    fun p hp => t4_val p (t5_perm.mem_iff.mp hp)
  have t5_msym : List.Pairwise
      (fun p q => p.mchr = q.mchr → (p.mend ≤ q.mstart ∨ q.mend ≤ p.mstart)) t5 :=
    (t5_perm.pairwise_iff (fun {p q} h hc => (h hc.symm).symm)).mpr t4_msym
  have t5_rh : List.Pairwise (fun p q => p.hchr = q.hchr →
      (p.iHi ≠ q.iHi ∧ (p.iHi < q.iHi → p.hend ≤ q.hstart) ∧
        (q.iHi < p.iHi → q.hend ≤ p.hstart))) t5 := by
    refine (t5_perm.pairwise_iff (fun {p q} h hc => ?_)).mpr t4_rh
    obtain ⟨h1, h2, h3⟩ := h hc.symm
    exact ⟨h1.symm, h3, h2⟩
  have t5_sorted : List.Pairwise (keyLeP mSel) t5 :=
    (List.sorted_mergeSort mKeyLe_trans mKeyLe_total t4).imp
      (fun {p q} h => (keyLe_iff mSel p q).mp h)
  -- stage 6: assign mouse ranks
  have t6_mem : ∀ p ∈ assignIMi t5, ∃ q ∈ input, coordEq p q := by
    intro p hp
    obtain ⟨q, hq, i, hpq⟩ := assignIMi_mem hp
    obtain ⟨r, hr, hcq⟩ := t5_mem q hq
    exact ⟨r, hr, coordEq_trans (hpq ▸ coordEq_setIMi q i) hcq⟩
  have t6_val : ∀ p ∈ assignIMi t5, p.mstart < p.mend ∧ p.hstart < p.hend := by
    intro p hp
    obtain ⟨q, hq, i, hpq⟩ := assignIMi_mem hp
    exact coordEq_val (hpq ▸ coordEq_setIMi q i) (t5_val q hq)
  have t6_sorted : List.Pairwise (keyLeP mSel) (assignIMi t5) :=
    assignIMi_pairwise (fun p q i j h => h) t5_sorted
  have t6_msym : List.Pairwise
      (fun p q => p.mchr = q.mchr → (p.mend ≤ q.mstart ∨ q.mend ≤ p.mstart))
      (assignIMi t5) :=
    assignIMi_pairwise (fun p q i j h => h) t5_msym
  have t6_rh : List.Pairwise (fun p q => p.hchr = q.hchr →
      (p.iHi ≠ q.iHi ∧ (p.iHi < q.iHi → p.hend ≤ q.hstart) ∧
        (q.iHi < p.iHi → q.hend ≤ p.hstart))) (assignIMi t5) :=
    assignIMi_pairwise (fun p q i j h => h) t5_rh
  have t6_ov : List.Pairwise (ovOk mSel) (assignIMi t5) := by
    refine (t6_sorted.and t6_msym).imp_of_mem (fun {p q} hp hq h => ?_)
    intro hc
    rcases h.2 hc with h' | h'
    · exact h'
    · exfalso
      have hq' := t6_val q hq
      have hle : p.mstart ≤ q.mstart := by
        rcases h.1 with hlt | ⟨-, hle⟩
        · exact absurd (hc ▸ hlt) (lt_irrefl _)
        · exact hle
      omega
  exact ⟨t6_mem, t6_sorted, assignIMi_rank t5, t6_ov, t6_rh⟩


/-! ### Claim C3 (amended): rank order implies non-overlap -/

/-- C3 as amended: when every input gene interval is nondegenerate
(start < end in both genomes) and the input arrives sorted by the mouse
key (the SQL `ORDER BY`), any two retained pairs on a shared chromosome
satisfy `end(p) ≤ start(q)` whenever `p`'s rank in that genome is below
`q`'s; `rank_nonoverlap_cex` shows the degenerate one-base-gene tie where
the unrestricted claim fails. -/
theorem prepared_pairs_nonoverlap (input : List Pair)
    (hsort : List.Pairwise (fun p q => mKeyLe p q = true) input)
    (hval : ∀ p ∈ input, p.mstart < p.mend ∧ p.hstart < p.hend) :
    ∀ p ∈ preparePairs input, ∀ q ∈ preparePairs input,
      (p.mchr = q.mchr → p.iMi < q.iMi → p.mend ≤ q.mstart) ∧
      (p.hchr = q.hchr → p.iHi < q.iHi → p.hend ≤ q.hstart) := by
  obtain ⟨-, -, hrank, hov, hrh⟩ := preparePairs_facts input hsort hval
  have hpw : List.Pairwise (fun p q =>
      (p.mchr = q.mchr → ((p.iMi < q.iMi → p.mend ≤ q.mstart) ∧
        (q.iMi < p.iMi → q.mend ≤ p.mstart))) ∧
      (p.hchr = q.hchr → ((p.iHi < q.iHi → p.hend ≤ q.hstart) ∧
        (q.iHi < p.iHi → q.hend ≤ p.hstart)))) (preparePairs input) := by
    refine ((hrank.and hov).and hrh).imp (fun {p q} h => ?_)
    obtain ⟨⟨hr, ho⟩, hh⟩ := h
    refine ⟨fun hc => ⟨fun _ => ho hc, fun hlt => absurd hr (lt_asymm hlt)⟩, fun hc => ?_⟩
    obtain ⟨-, h2, h3⟩ := hh hc
    exact ⟨h2, h3⟩
  have hsymm : Symmetric (fun p q : Pair =>
      (p.mchr = q.mchr → ((p.iMi < q.iMi → p.mend ≤ q.mstart) ∧
        (q.iMi < p.iMi → q.mend ≤ p.mstart))) ∧
      (p.hchr = q.hchr → ((p.iHi < q.iHi → p.hend ≤ q.hstart) ∧
        (q.iHi < p.iHi → q.hend ≤ p.hstart)))) := by
    intro a b h
    refine ⟨fun hc => ?_, fun hc => ?_⟩
    · obtain ⟨h1, h2⟩ := h.1 hc.symm
      exact ⟨h2, h1⟩
    · obtain ⟨h1, h2⟩ := h.2 hc.symm
      exact ⟨h2, h1⟩
  intro p hp q hq
  by_cases hpq : p = q
  · subst hpq
    exact ⟨fun _ hlt => absurd hlt (lt_irrefl _), fun _ hlt => absurd hlt (lt_irrefl _)⟩
  · have hR := List.Pairwise.forall hsymm hpw hp hq hpq
    exact ⟨fun hc hlt => (hR.1 hc).1 hlt, fun hc hlt => (hR.2 hc).1 hlt⟩

/-- Witness for C3's amended statement at the scenario input. -/
theorem prepared_pairs_nonoverlap_witness :
    (List.Pairwise (fun p q => mKeyLe p q = true)
        [scenarioP1, scenarioP2, scenarioP3] ∧
      ∀ p ∈ [scenarioP1, scenarioP2, scenarioP3],
        p.mstart < p.mend ∧ p.hstart < p.hend) ∧
    (∀ p ∈ preparePairs [scenarioP1, scenarioP2, scenarioP3],
      ∀ q ∈ preparePairs [scenarioP1, scenarioP2, scenarioP3],
      (p.mchr = q.mchr → p.iMi < q.iMi → p.mend ≤ q.mstart) ∧
      (p.hchr = q.hchr → p.iHi < q.iHi → p.hend ≤ q.hstart)) := by
  have h1 : List.Pairwise (fun p q => mKeyLe p q = true)
      [scenarioP1, scenarioP2, scenarioP3] := by
    simp +decide [List.pairwise_cons, scenarioP1, scenarioP2, scenarioP3,
      mKeyLe, keyLe, mSel]
  have h2 : ∀ p ∈ [scenarioP1, scenarioP2, scenarioP3],
      p.mstart < p.mend ∧ p.hstart < p.hend := by decide
  exact ⟨⟨h1, h2⟩, prepared_pairs_nonoverlap _ h1 h2⟩

/-! ### Claim C1: supporting block-structure facts -/

theorem startBlock_inv (counter : String → Nat) (p : Pair) :
    BlockPairsInv ((startBlock counter p).1, [p]) := by
  refine ⟨by simp, ?_, ?_, ⟨p, by simp, rfl⟩, ⟨p, by simp, rfl⟩,
    ⟨p, by simp, rfl⟩, ⟨p, by simp, rfl⟩, ?_⟩
  · intro q hq
    rw [List.mem_singleton] at hq
    subst hq
    exact ⟨rfl, rfl⟩
  · intro q hq
    rw [List.mem_singleton] at hq
    subst hq
    exact ⟨le_refl _, le_refl _, le_refl _, le_refl _⟩
  · intro i q hq
    match i with
    | 0 =>
      rw [List.getElem?_cons_zero] at hq
      injection hq with hq
      subst hq
      show p.iHi = p.iHi - ((1 : Int) - 1 - 0) * (startBlock counter p).1.ori
      ring
    | i + 1 => simp at hq

theorem extendBlock_inv (e₀ : Block × List Pair) (p : Pair)
    (h : BlockPairsInv e₀) (hm : canMerge p (some e₀.1) = true) :
    BlockPairsInv (extendBlock p e₀.1, e₀.2 ++ [p]) := by
  obtain ⟨hne, hchr, hbd, hs1, hs2, hs3, hs4, hrank⟩ := h
  simp only [canMerge, Bool.and_eq_true, beq_iff_eq] at hm
  obtain ⟨⟨⟨hmchr, hhchr⟩, _⟩, hiHi⟩ := hm
  refine ⟨by simp, ?_, ?_, ?_, ?_, ?_, ?_, ?_⟩
  · intro q hq
    rcases List.mem_append.mp hq with hq | hq
    · exact hchr q hq
    · rw [List.mem_singleton] at hq
      subst hq
      exact ⟨hmchr, hhchr⟩
  · intro q hq
    show min e₀.1.fields.mstart p.mstart ≤ q.mstart ∧
      q.mend ≤ max e₀.1.fields.mend p.mend ∧
      min e₀.1.fields.hstart p.hstart ≤ q.hstart ∧
      q.hend ≤ max e₀.1.fields.hend p.hend
    rcases List.mem_append.mp hq with hq | hq
    · obtain ⟨b1, b2, b3, b4⟩ := hbd q hq
      omega
    · rw [List.mem_singleton] at hq
      subst hq
      omega
  · rcases le_total e₀.1.fields.mstart p.mstart with hc | hc
    · obtain ⟨q, hq, hq'⟩ := hs1
      exact ⟨q, List.mem_append_left _ hq,
        show q.mstart = min e₀.1.fields.mstart p.mstart by omega⟩
    · exact ⟨p, List.mem_append_right _ (by simp),
        show p.mstart = min e₀.1.fields.mstart p.mstart by omega⟩
  · rcases le_total e₀.1.fields.mend p.mend with hc | hc
    · exact ⟨p, List.mem_append_right _ (by simp),
        show p.mend = max e₀.1.fields.mend p.mend by omega⟩
    · obtain ⟨q, hq, hq'⟩ := hs2
      exact ⟨q, List.mem_append_left _ hq,
        show q.mend = max e₀.1.fields.mend p.mend by omega⟩
  · rcases le_total e₀.1.fields.hstart p.hstart with hc | hc
    · obtain ⟨q, hq, hq'⟩ := hs3
      exact ⟨q, List.mem_append_left _ hq,
        show q.hstart = min e₀.1.fields.hstart p.hstart by omega⟩
    · exact ⟨p, List.mem_append_right _ (by simp),
        show p.hstart = min e₀.1.fields.hstart p.hstart by omega⟩
  · rcases le_total e₀.1.fields.hend p.hend with hc | hc
    · exact ⟨p, List.mem_append_right _ (by simp),
        show p.hend = max e₀.1.fields.hend p.hend by omega⟩
    · obtain ⟨q, hq, hq'⟩ := hs4
      exact ⟨q, List.mem_append_left _ hq,
        show q.hend = max e₀.1.fields.hend p.hend by omega⟩
  · intro i q hq
    show q.iHi = p.iHi -
      (((e₀.2 ++ [p]).length : Int) - 1 - (i : Int)) * e₀.1.ori
    by_cases hi : i < e₀.2.length
    · rw [List.getElem?_append_left hi] at hq
      have hr := hrank i q hq
      rw [hr, hiHi]
      simp only [List.length_append, List.length_singleton]
      push_cast
      ring
    · have hlt : i < (e₀.2 ++ [p]).length := (List.getElem?_eq_some_iff.mp hq).1
      simp only [List.length_append, List.length_singleton] at hlt
      have hieq : i = e₀.2.length := by omega
      subst hieq
      rw [List.getElem?_append_right (le_refl _)] at hq
      simp only [Nat.sub_self, List.getElem?_cons_zero] at hq
      injection hq with hq
      subst hq
      simp only [List.length_append, List.length_singleton]
      push_cast
      ring

theorem generateBlocksGAux_inv :
    ∀ (ps : List Pair) (counter : String → Nat) (curr : Option (Block × List Pair)),
      (∀ e, curr = some e → BlockPairsInv e) →
      ∀ e ∈ (generateBlocksGAux counter curr ps).1, BlockPairsInv e := by
  intro ps
  induction ps with
  | nil =>
    intro counter curr hcurr e he
    cases curr with
    | none => simp [generateBlocksGAux] at he
    | some e₀ =>
      simp only [generateBlocksGAux, Option.toList_some, List.mem_singleton] at he
      exact he ▸ hcurr e₀ rfl
  | cons p rest ih =>
    intro counter curr hcurr e he
    match curr with
    | some e₀ =>
      by_cases hm : canMerge p (some e₀.1) = true
      · rw [show generateBlocksGAux counter (some e₀) (p :: rest) =
          generateBlocksGAux counter (some (extendBlock p e₀.1, e₀.2 ++ [p])) rest
          from by simp [generateBlocksGAux, hm]] at he
        refine ih counter _ ?_ e he
        intro e' he'
        injection he' with he'
        subst he'
        exact extendBlock_inv e₀ p (hcurr e₀ rfl) hm
      · rw [show generateBlocksGAux counter (some e₀) (p :: rest) =
          (e₀ :: (generateBlocksGAux (startBlock counter p).2
            (some ((startBlock counter p).1, [p])) rest).1,
           (generateBlocksGAux (startBlock counter p).2
            (some ((startBlock counter p).1, [p])) rest).2)
          from by simp [generateBlocksGAux, hm]] at he
        rcases List.mem_cons.mp he with he | he
        · exact he ▸ hcurr e₀ rfl
        · refine ih _ _ ?_ e he
          intro e' he'
          injection he' with he'
          subst he'
          exact startBlock_inv counter p
    | none =>
      rw [show generateBlocksGAux counter none (p :: rest) =
        generateBlocksGAux (startBlock counter p).2
          (some ((startBlock counter p).1, [p])) rest
        from by simp [generateBlocksGAux]] at he
      refine ih _ _ ?_ e he
      intro e' he'
      injection he' with he'
      subst he'
      exact startBlock_inv counter p

theorem generateBlocksGAux_flatten :
    ∀ (ps : List Pair) (counter : String → Nat) (curr : Option (Block × List Pair)),
      ((generateBlocksGAux counter curr ps).1.map Prod.snd).flatten =
        curr.elim [] Prod.snd ++ ps := by
  intro ps
  induction ps with
  | nil =>
    intro counter curr
    cases curr <;> simp [generateBlocksGAux]
  | cons p rest ih =>
    intro counter curr
    match curr with
    | some e₀ =>
      by_cases hm : canMerge p (some e₀.1) = true
      · rw [show generateBlocksGAux counter (some e₀) (p :: rest) =
          generateBlocksGAux counter (some (extendBlock p e₀.1, e₀.2 ++ [p])) rest
          from by simp [generateBlocksGAux, hm]]
        rw [ih]
        simp
      · rw [show generateBlocksGAux counter (some e₀) (p :: rest) =
          (e₀ :: (generateBlocksGAux (startBlock counter p).2
            (some ((startBlock counter p).1, [p])) rest).1,
           (generateBlocksGAux (startBlock counter p).2
            (some ((startBlock counter p).1, [p])) rest).2)
          from by simp [generateBlocksGAux, hm]]
        simp only [List.map_cons, List.flatten_cons, ih]
        simp
    | none =>
      rw [show generateBlocksGAux counter none (p :: rest) =
        generateBlocksGAux (startBlock counter p).2
          (some ((startBlock counter p).1, [p])) rest
        from by simp [generateBlocksGAux]]
      rw [ih]
      simp

theorem rank_bound (e : Block × List Pair) (h : BlockPairsInv e)
    (hori : e.1.ori = 1 ∨ e.1.ori = -1) :
    ∀ p ∈ e.2,
      min (e.1.fields.iHi - ((e.2.length : Int) - 1) * e.1.ori) e.1.fields.iHi ≤ p.iHi ∧
      p.iHi ≤ max (e.1.fields.iHi - ((e.2.length : Int) - 1) * e.1.ori) e.1.fields.iHi := by
  obtain ⟨-, -, -, -, -, -, -, hrank⟩ := h
  intro p hp
  obtain ⟨i, hi⟩ := List.mem_iff_getElem?.mp hp
  have hil : i < e.2.length := (List.getElem?_eq_some_iff.mp hi).1
  have hform := hrank i p hi
  rcases hori with ho | ho <;> rw [ho] at hform ⊢ <;> omega

theorem rank_surj (e : Block × List Pair) (h : BlockPairsInv e)
    (hori : e.1.ori = 1 ∨ e.1.ori = -1) (r : Int)
    (hlo : min (e.1.fields.iHi - ((e.2.length : Int) - 1) * e.1.ori) e.1.fields.iHi ≤ r)
    (hhi : r ≤ max (e.1.fields.iHi - ((e.2.length : Int) - 1) * e.1.ori) e.1.fields.iHi) :
    ∃ p ∈ e.2, p.iHi = r := by
  have hL : 0 < e.2.length := List.length_pos.mpr h.1
  have hrank := h.2.2.2.2.2.2.2
  rcases hori with ho | ho
  · rw [ho] at hlo hhi
    have hilt : (r - e.1.fields.iHi + ((e.2.length : Int) - 1)).toNat < e.2.length := by
      omega
    have hsome := List.getElem?_eq_getElem hilt
    have hform := hrank _ _ hsome
    refine ⟨_, List.mem_iff_getElem?.mpr ⟨_, hsome⟩, ?_⟩
    rw [ho] at hform
    omega
  · rw [ho] at hlo hhi
    have hilt : (e.1.fields.iHi + ((e.2.length : Int) - 1) - r).toNat < e.2.length := by
      omega
    have hsome := List.getElem?_eq_getElem hilt
    have hform := hrank _ _ hsome
    refine ⟨_, List.mem_iff_getElem?.mpr ⟨_, hsome⟩, ?_⟩
    rw [ho] at hform
    omega

theorem blocks_hdisjoint (e f : Block × List Pair)
    (he : BlockPairsInv e) (hf : BlockPairsInv f)
    (heo : e.1.ori = 1 ∨ e.1.ori = -1) (hfo : f.1.ori = 1 ∨ f.1.ori = -1)
    (hcross : ∀ p ∈ e.2, ∀ q ∈ f.2, p.hchr = q.hchr →
      p.iHi ≠ q.iHi ∧ (p.iHi < q.iHi → p.hend ≤ q.hstart) ∧
      (q.iHi < p.iHi → q.hend ≤ p.hstart))
    (hchr : e.1.fields.hchr = f.1.fields.hchr) :
    e.1.fields.hend ≤ f.1.fields.hstart ∨ f.1.fields.hend ≤ e.1.fields.hstart := by
  have hchrPQ : ∀ p ∈ e.2, ∀ q ∈ f.2, p.hchr = q.hchr := by
    intro p hp q hq
    rw [(he.2.1 p hp).2, (hf.2.1 q hq).2, hchr]
  by_cases hc1 :
      max (e.1.fields.iHi - ((e.2.length : Int) - 1) * e.1.ori) e.1.fields.iHi <
      min (f.1.fields.iHi - ((f.2.length : Int) - 1) * f.1.ori) f.1.fields.iHi
  · obtain ⟨p2, hp2, hp2e⟩ := he.2.2.2.2.2.2.1
    obtain ⟨q2, hq2, hq2e⟩ := hf.2.2.2.2.2.1
    have hb1 := rank_bound e he heo p2 hp2
    have hb2 := rank_bound f hf hfo q2 hq2
    have hlt : p2.iHi < q2.iHi := by omega
    exact Or.inl (hp2e ▸ hq2e ▸ (hcross p2 hp2 q2 hq2 (hchrPQ p2 hp2 q2 hq2)).2.1 hlt)
  · by_cases hc2 :
        max (f.1.fields.iHi - ((f.2.length : Int) - 1) * f.1.ori) f.1.fields.iHi <
        min (e.1.fields.iHi - ((e.2.length : Int) - 1) * e.1.ori) e.1.fields.iHi
    · obtain ⟨p1, hp1, hp1e⟩ := he.2.2.2.2.2.1
      obtain ⟨q1, hq1, hq1e⟩ := hf.2.2.2.2.2.2.1
      have hb1 := rank_bound e he heo p1 hp1
      have hb2 := rank_bound f hf hfo q1 hq1
      have hlt : q1.iHi < p1.iHi := by omega
      exact Or.inr (hq1e ▸ hp1e ▸ (hcross p1 hp1 q1 hq1 (hchrPQ p1 hp1 q1 hq1)).2.2 hlt)
    · exfalso
      obtain ⟨pe, hpe⟩ := List.exists_mem_of_ne_nil _ he.1
      obtain ⟨qf, hqf⟩ := List.exists_mem_of_ne_nil _ hf.1
      have hbe := rank_bound e he heo pe hpe
      have hbf := rank_bound f hf hfo qf hqf
      obtain ⟨p, hp, hpr⟩ := rank_surj e he heo
        (max (min (e.1.fields.iHi - ((e.2.length : Int) - 1) * e.1.ori) e.1.fields.iHi)
          (min (f.1.fields.iHi - ((f.2.length : Int) - 1) * f.1.ori) f.1.fields.iHi))
        (by omega) (by omega)
      obtain ⟨q, hq, hqr⟩ := rank_surj f hf hfo
        (max (min (e.1.fields.iHi - ((e.2.length : Int) - 1) * e.1.ori) e.1.fields.iHi)
          (min (f.1.fields.iHi - ((f.2.length : Int) - 1) * f.1.ori) f.1.fields.iHi))
        (by omega) (by omega)
      exact (hcross p hp q hq (hchrPQ p hp q hq)).1 (by rw [hpr, hqr])

theorem gOut_cross (counter : String → Nat) (ps : List Pair)
    (R : Pair → Pair → Prop) (hpw : List.Pairwise R ps) :
    List.Pairwise (fun e1 e2 : Block × List Pair => ∀ p ∈ e1.2, ∀ q ∈ e2.2, R p q)
      (generateBlocksG counter ps).1 := by
  have hfl := generateBlocksGAux_flatten ps counter none
  simp only [Option.elim, List.nil_append] at hfl
  have h2 : List.Pairwise R (((generateBlocksG counter ps).1.map Prod.snd).flatten) := by
    rw [show ((generateBlocksG counter ps).1.map Prod.snd).flatten = ps from hfl]
    exact hpw
  exact List.pairwise_map.mp (List.pairwise_flatten.mp h2).2

theorem gOut_mem (counter : String → Nat) (ps : List Pair) :
    ∀ e ∈ (generateBlocksG counter ps).1, ∀ p ∈ e.2, p ∈ ps := by
  intro e he p hp
  have hfl := generateBlocksGAux_flatten ps counter none
  simp only [Option.elim, List.nil_append] at hfl
  have hm : p ∈ ((generateBlocksG counter ps).1.map Prod.snd).flatten :=
    List.mem_flatten.mpr ⟨e.2, List.mem_map_of_mem Prod.snd he, hp⟩
  rw [show ((generateBlocksG counter ps).1.map Prod.snd).flatten = ps from hfl] at hm
  exact hm

theorem generator_block_facts (counter : String → Nat) (input : List Pair)
    (hsort : List.Pairwise (fun p q => mKeyLe p q = true) input)
    (hval : ∀ p ∈ input,
      1 ≤ p.mstart ∧ p.mstart < p.mend ∧ 1 ≤ p.hstart ∧ p.hstart < p.hend) :
    List.Pairwise (fun b c : Block => keyLeP mSel b.fields c.fields)
      (generateBlocks counter (preparePairs input)).1 ∧
    List.Pairwise (fun b c : Block => ovOk mSel b.fields c.fields)
      (generateBlocks counter (preparePairs input)).1 ∧
    List.Pairwise (fun b c : Block => b.fields.hchr = c.fields.hchr →
      (b.fields.hend ≤ c.fields.hstart ∨ c.fields.hend ≤ b.fields.hstart))
      (generateBlocks counter (preparePairs input)).1 ∧
    (∀ b ∈ (generateBlocks counter (preparePairs input)).1,
      1 ≤ b.fields.mstart ∧ b.fields.mstart < b.fields.mend ∧
      1 ≤ b.fields.hstart ∧ b.fields.hstart < b.fields.hend) := by
  have hval' : ∀ p ∈ input, p.mstart < p.mend ∧ p.hstart < p.hend :=
    fun p hp => ⟨(hval p hp).2.1, (hval p hp).2.2.2⟩
  obtain ⟨hmem, hkey, -, hov, hrh⟩ := preparePairs_facts input hsort hval'
  have hpos : ∀ p ∈ preparePairs input,
      1 ≤ p.mstart ∧ p.mstart < p.mend ∧ 1 ≤ p.hstart ∧ p.hstart < p.hend := by
    intro p hp
    obtain ⟨q, hq, hc⟩ := hmem p hp
    obtain ⟨-, c2, c3, -, c5, c6, -, -⟩ := hc
    have := hval q hq
    omega
  have hinv : ∀ e ∈ (generateBlocksG counter (preparePairs input)).1, BlockPairsInv e :=
    generateBlocksGAux_inv (preparePairs input) counter none (by rintro e ⟨⟩)
  have hori : ∀ e ∈ (generateBlocksG counter (preparePairs input)).1,
      e.1.ori = 1 ∨ e.1.ori = -1 :=
    fun e he =>
      (generateBlocksGAux_ori (preparePairs input) counter none (by rintro e ⟨⟩) e he).1
  have hfst : (generateBlocksG counter (preparePairs input)).1.map Prod.fst =
      (generateBlocks counter (preparePairs input)).1 :=
    (generateBlocksGAux_fst (preparePairs input) counter none).1
  have hmemg := gOut_mem counter (preparePairs input)
  have hxKey := gOut_cross counter (preparePairs input) _ hkey
  have hxOv := gOut_cross counter (preparePairs input) _ hov
  have hxRh := gOut_cross counter (preparePairs input) _ hrh
  refine ⟨?_, ?_, ?_, ?_⟩
  · rw [← hfst, List.pairwise_map]
    refine List.Pairwise.imp_of_mem ?_ hxKey
    intro e f he hf hx
    obtain ⟨p0, hp0, hp0e⟩ := (hinv e he).2.2.2.1
    obtain ⟨q0, hq0, hq0e⟩ := (hinv f hf).2.2.2.1
    have hk := hx p0 hp0 q0 hq0
    have hpc : p0.mchr = e.1.fields.mchr := ((hinv e he).2.1 p0 hp0).1
    have hqc : q0.mchr = f.1.fields.mchr := ((hinv f hf).2.1 q0 hq0).1
    simp only [keyLeP, mSel] at hk ⊢
    rw [hpc, hqc, hp0e, hq0e] at hk
    exact hk
  · rw [← hfst, List.pairwise_map]
    refine List.Pairwise.imp_of_mem ?_ hxOv
    intro e f he hf hx
    intro hc
    obtain ⟨p1, hp1, hp1e⟩ := (hinv e he).2.2.2.2.1
    obtain ⟨q0, hq0, hq0e⟩ := (hinv f hf).2.2.2.1
    have hpc : p1.mchr = e.1.fields.mchr := ((hinv e he).2.1 p1 hp1).1
    have hqc : q0.mchr = f.1.fields.mchr := ((hinv f hf).2.1 q0 hq0).1
    have hk := hx p1 hp1 q0 hq0 (by
      show p1.mchr = q0.mchr
      rw [hpc, hqc]
      exact hc)
    show e.1.fields.mend ≤ f.1.fields.mstart
    rw [← hp1e, ← hq0e]
    exact hk
  · rw [← hfst, List.pairwise_map]
    refine List.Pairwise.imp_of_mem ?_ hxRh
    intro e f he hf hx hc
    exact blocks_hdisjoint e f (hinv e he) (hinv f hf) (hori e he) (hori f hf)
      (fun p hp q hq hpq => hx p hp q hq hpq) hc
  · rw [← hfst]
    intro b hb
    obtain ⟨e, he, hbe⟩ := List.mem_map.mp hb
    subst hbe
    obtain ⟨p0, hp0, hp0e⟩ := (hinv e he).2.2.2.1
    obtain ⟨r0, hr0, hr0e⟩ := (hinv e he).2.2.2.2.2.1
    have hb0 := (hinv e he).2.2.1 p0 hp0
    have hb1 := (hinv e he).2.2.1 r0 hr0
    have hv0 := hpos p0 (hmemg e he p0 hp0)
    have hv1 := hpos r0 (hmemg e he r0 hr0)
    refine ⟨?_, ?_, ?_, ?_⟩
    · rw [← hp0e]; omega
    · rw [← hp0e]; omega
    · rw [← hr0e]; omega
    · rw [← hr0e]; omega

theorem blockMKeyLe_trans : ∀ (a b c : Block),
    blockMKeyLe a b → blockMKeyLe b c → blockMKeyLe a c :=
  fun a b c h1 h2 => mKeyLe_trans a.fields b.fields c.fields h1 h2

theorem blockMKeyLe_total : ∀ (a b : Block), blockMKeyLe a b || blockMKeyLe b a :=
  fun a b => mKeyLe_total a.fields b.fields

theorem blockHKeyLe_trans : ∀ (a b c : Block),
    blockHKeyLe a b → blockHKeyLe b c → blockHKeyLe a c :=
  fun a b c h1 h2 => hKeyLe_trans a.fields b.fields c.fields h1 h2

theorem blockHKeyLe_total : ∀ (a b : Block), blockHKeyLe a b || blockHKeyLe b a :=
  fun a b => hKeyLe_total a.fields b.fields

theorem partitioned_congr (sel : GSel) (V : Block → String × Int × Int)
    (hV : ∀ b, V b = (sel.chr b.fields, sel.gstart b.fields, sel.gend b.fields))
    (L₁ L₂ : List Block) (h : L₁.map V = L₂.map V)
    (hp : partitioned sel L₂) : partitioned sel L₁ := by
  have hidx : ∀ i : Nat, L₁[i]?.map V = L₂[i]?.map V := by
    intro i
    rw [← List.getElem?_map V L₁ i, ← List.getElem?_map V L₂ i, h]
  have hcomp : ∀ (b c : Block), V b = V c →
      sel.chr b.fields = sel.chr c.fields ∧
      sel.gstart b.fields = sel.gstart c.fields ∧
      sel.gend b.fields = sel.gend c.fields := by
    intro b c hbc
    rw [hV b, hV c] at hbc
    exact ⟨congrArg (fun t => t.1) hbc,
      congrArg (fun t => t.2.1) hbc, congrArg (fun t => t.2.2) hbc⟩
  constructor
  · intro b hb
    rw [List.head?_eq_getElem? L₁] at hb
    have h0 := hidx 0
    rw [hb] at h0
    cases hc : L₂[0]? with
    | none => rw [hc] at h0; simp at h0
    | some c =>
      rw [hc] at h0
      simp only [Option.map_some'] at h0
      injection h0 with h0
      have hpc := hp.1 c (by rw [List.head?_eq_getElem? L₂, hc])
      rw [(hcomp b c h0).2.1]
      exact hpc
  · intro i x y hx hy
    have h0 := hidx i
    have h1 := hidx (i + 1)
    rw [hx] at h0
    rw [hy] at h1
    cases hc : L₂[i]? with
    | none => rw [hc] at h0; simp at h0
    | some c =>
      cases hd : L₂[i + 1]? with
      | none => rw [hd] at h1; simp at h1
      | some d =>
        rw [hc] at h0
        rw [hd] at h1
        simp only [Option.map_some'] at h0 h1
        injection h0 with h0
        injection h1 with h1
        obtain ⟨e1, e2, e3⟩ := hcomp x c h0
        obtain ⟨f1, f2, f3⟩ := hcomp y d h1
        have hpc := hp.2 i c d hc hd
        constructor
        · intro hcc
          rw [e3, f2]
          exact hpc.1 (by rw [← e1, ← f1, hcc])
        · intro hcc
          rw [f2]
          exact hpc.2 (by rw [← e1, ← f1]; exact hcc)

theorem massage_pipeline_facts (bs : List Block)
    (hD1 : List.Pairwise (fun b c => keyLeP mSel b.fields c.fields) bs)
    (hD2 : List.Pairwise (fun b c => ovOk mSel b.fields c.fields) bs)
    (hD4 : List.Pairwise (fun b c => b.fields.hchr = c.fields.hchr →
      (b.fields.hend ≤ c.fields.hstart ∨ c.fields.hend ≤ b.fields.hstart)) bs)
    (hD3 : ∀ b ∈ bs, 1 ≤ b.fields.mstart ∧ b.fields.mstart < b.fields.mend ∧
      1 ≤ b.fields.hstart ∧ b.fields.hstart < b.fields.hend)
    (hlen : 2 ≤ bs.length) :
    partitioned mSel ((massageBlocks bs).mergeSort blockMKeyLe) ∧
    partitioned hSel ((massageBlocks bs).mergeSort blockHKeyLe) := by
  -- mouse pass
  have hpartM : partitioned mSel (_massageBlocks bs mSel) :=
    _massageBlocks_partitioned mSelLaws bs hlen
  have hchainM : List.Chain' (fun b c => keyLtP mSel b.fields c.fields)
      (_massageBlocks bs mSel) :=
    _massageBlocks_chain mSelLaws bs
      (fun b hb => ⟨(hD3 b hb).1, (hD3 b hb).2.1⟩)
      (hD2.chain')
      ((hD1.imp (fun {b c} h => by
        rcases h with h | ⟨e, -⟩
        · exact le_of_lt h
        · exact le_of_eq e)).chain')
  have hframeM : (_massageBlocks bs mSel).map hView = bs.map hView :=
    _massageBlocks_map mSel hView (fun b v => rfl) (fun b v => rfl) bs
  have hlenM : (_massageBlocks bs mSel).length = bs.length :=
    _massageBlocks_length mSel bs
  have hD3Hm : ∀ b ∈ _massageBlocks bs mSel,
      1 ≤ b.fields.hstart ∧ b.fields.hstart < b.fields.hend := by
    intro b hb
    have hm : hView b ∈ bs.map hView := by
      rw [← hframeM]
      exact List.mem_map_of_mem hView hb
    obtain ⟨c, hc, hce⟩ := List.mem_map.mp hm
    have h1 : c.fields.hstart = b.fields.hstart := congrArg (fun t => t.2.1) hce
    have h2 : c.fields.hend = b.fields.hend := congrArg (fun t => t.2.2) hce
    have := hD3 c hc
    omega
  have hD4m : List.Pairwise (fun b c => b.fields.hchr = c.fields.hchr →
      (b.fields.hend ≤ c.fields.hstart ∨ c.fields.hend ≤ b.fields.hstart))
      (_massageBlocks bs mSel) := by
    have h1 : List.Pairwise (fun x y : String × Int × Int => x.1 = y.1 →
        (x.2.2 ≤ y.2.1 ∨ y.2.2 ≤ x.2.1)) (bs.map hView) :=
      List.pairwise_map.mpr (hD4.imp (fun {b c} h => h))
    rw [← hframeM] at h1
    exact List.pairwise_map.mp h1
  -- human sort
  have hpermH : ((_massageBlocks bs mSel).mergeSort blockHKeyLe).Perm
      (_massageBlocks bs mSel) :=
    List.mergeSort_perm (_massageBlocks bs mSel) blockHKeyLe
  have hsortH : List.Pairwise (fun b c => keyLeP hSel b.fields c.fields)
      ((_massageBlocks bs mSel).mergeSort blockHKeyLe) :=
    (List.sorted_mergeSort blockHKeyLe_trans blockHKeyLe_total
      (_massageBlocks bs mSel)).imp
      (fun {b c} h => (keyLe_iff hSel b.fields c.fields).mp h)
  have hD3Hh : ∀ b ∈ (_massageBlocks bs mSel).mergeSort blockHKeyLe,
      1 ≤ b.fields.hstart ∧ b.fields.hstart < b.fields.hend :=
    fun b hb => hD3Hm b (hpermH.mem_iff.mp hb)
  have hsymmRH : Symmetric (fun b c : Block => b.fields.hchr = c.fields.hchr →
      (b.fields.hend ≤ c.fields.hstart ∨ c.fields.hend ≤ b.fields.hstart)) := by
    intro a b h hc
    rcases h hc.symm with h1 | h1
    · exact Or.inr h1
    · exact Or.inl h1
  have hD4h : List.Pairwise (fun b c => b.fields.hchr = c.fields.hchr →
      (b.fields.hend ≤ c.fields.hstart ∨ c.fields.hend ≤ b.fields.hstart))
      ((_massageBlocks bs mSel).mergeSort blockHKeyLe) :=
    (hpermH.pairwise_iff (fun h => hsymmRH h)).mpr hD4m
  have hOvH : List.Pairwise (fun b c => ovOk hSel b.fields c.fields)
      ((_massageBlocks bs mSel).mergeSort blockHKeyLe) := by
    refine List.Pairwise.imp_of_mem ?_ (hsortH.and hD4h)
    intro b c hb hc h hchr_eq
    obtain ⟨hle, hdisj⟩ := h
    show b.fields.hend ≤ c.fields.hstart
    rcases hdisj hchr_eq with h1 | h1
    · exact h1
    · have hs := hD3Hh c hc
      have hbc : b.fields.hstart ≤ c.fields.hstart := by
        rcases hle with h2 | ⟨-, h2⟩
        · exact absurd hchr_eq (ne_of_lt h2)
        · exact h2
      omega
  -- human pass
  have hlenH : 2 ≤ ((_massageBlocks bs mSel).mergeSort blockHKeyLe).length := by
    rw [List.length_mergeSort, hlenM]
    exact hlen
  have hpartH : partitioned hSel
      (_massageBlocks ((_massageBlocks bs mSel).mergeSort blockHKeyLe) hSel) :=
    _massageBlocks_partitioned hSelLaws _ hlenH
  have hchainH : List.Chain' (fun b c => keyLtP hSel b.fields c.fields)
      (_massageBlocks ((_massageBlocks bs mSel).mergeSort blockHKeyLe) hSel) :=
    _massageBlocks_chain hSelLaws _
      (fun b hb => hD3Hh b hb)
      (hOvH.chain')
      ((hsortH.imp (fun {b c} h => by
        rcases h with h | ⟨e, -⟩
        · exact le_of_lt h
        · exact le_of_eq e)).chain')
  have hframeH :
      (_massageBlocks ((_massageBlocks bs mSel).mergeSort blockHKeyLe) hSel).map mView =
        ((_massageBlocks bs mSel).mergeSort blockHKeyLe).map mView :=
    _massageBlocks_map hSel mView (fun b v => rfl) (fun b v => rfl) _
  -- strict orders out of the two passes
  haveI instTM : IsTrans Block (fun b c => keyLtP mSel b.fields c.fields) :=
    ⟨fun a b c h1 h2 => keyLtP_trans mSel h1 h2⟩
  haveI instTH : IsTrans Block (fun b c => keyLtP hSel b.fields c.fields) :=
    ⟨fun a b c h1 h2 => keyLtP_trans hSel h1 h2⟩
  have hStrictM : List.Pairwise (fun b c => keyLtP mSel b.fields c.fields)
      (_massageBlocks bs mSel) := List.chain'_iff_pairwise.mp hchainM
  have hStrictH : List.Pairwise (fun b c => keyLtP hSel b.fields c.fields)
      (_massageBlocks ((_massageBlocks bs mSel).mergeSort blockHKeyLe) hSel) :=
    List.chain'_iff_pairwise.mp hchainH
  constructor
  · -- mouse side: the final mouse sort agrees with the mouse pass on mouse views
    have hfinalSorted := List.sorted_mergeSort blockMKeyLe_trans blockMKeyLe_total
      (_massageBlocks ((_massageBlocks bs mSel).mergeSort blockHKeyLe) hSel)
    rw [show (massageBlocks bs).mergeSort blockMKeyLe = massageBlocks bs from
      List.mergeSort_of_sorted hfinalSorted]
    show partitioned mSel
      ((_massageBlocks ((_massageBlocks bs mSel).mergeSort blockHKeyLe)
        hSel).mergeSort blockMKeyLe)
    have vch1 : (((_massageBlocks ((_massageBlocks bs mSel).mergeSort blockHKeyLe)
        hSel).mergeSort blockMKeyLe).map mView).Perm
        ((_massageBlocks ((_massageBlocks bs mSel).mergeSort blockHKeyLe)
          hSel).map mView) :=
      (List.mergeSort_perm _ blockMKeyLe).map mView
    have vch2 : (((_massageBlocks bs mSel).mergeSort blockHKeyLe).map mView).Perm
        ((_massageBlocks bs mSel).map mView) :=
      hpermH.map mView
    have vchain : (((_massageBlocks ((_massageBlocks bs mSel).mergeSort blockHKeyLe)
        hSel).mergeSort blockMKeyLe).map mView).Perm
        ((_massageBlocks bs mSel).map mView) :=
      (vch1.trans (hframeH ▸ List.Perm.refl _)).trans vch2
    have hVStrictM : List.Pairwise vLt ((_massageBlocks bs mSel).map mView) :=
      List.pairwise_map.mpr (hStrictM.imp (fun {a b} h => h))
    have hDvSymm : Symmetric (fun x y : String × Int × Int =>
        ¬(x.1 = y.1 ∧ x.2.1 = y.2.1)) := by
      intro x y h hxy
      exact h ⟨hxy.1.symm, hxy.2.symm⟩
    have hDm : List.Pairwise (fun x y : String × Int × Int =>
        ¬(x.1 = y.1 ∧ x.2.1 = y.2.1)) ((_massageBlocks bs mSel).map mView) :=
      hVStrictM.imp (fun {x y} h hxy => by
        rcases h with h | ⟨-, h⟩
        · exact absurd hxy.1 (ne_of_lt h)
        · exact absurd hxy.2 (ne_of_lt h))
    have hDmFinal : List.Pairwise (fun x y : String × Int × Int =>
        ¬(x.1 = y.1 ∧ x.2.1 = y.2.1))
        (((_massageBlocks ((_massageBlocks bs mSel).mergeSort blockHKeyLe)
          hSel).mergeSort blockMKeyLe).map mView) :=
      (vchain.pairwise_iff (fun h => hDvSymm h)).mpr hDm
    have hVSortM : List.Pairwise vLe
        (((_massageBlocks ((_massageBlocks bs mSel).mergeSort blockHKeyLe)
          hSel).mergeSort blockMKeyLe).map mView) :=
      List.pairwise_map.mpr (hfinalSorted.imp
        (fun {b c} h => (keyLe_iff mSel b.fields c.fields).mp h))
    have hVStrictFinal : List.Pairwise vLt
        (((_massageBlocks ((_massageBlocks bs mSel).mergeSort blockHKeyLe)
          hSel).mergeSort blockMKeyLe).map mView) := by
      refine (hVSortM.and hDmFinal).imp (fun {x y} h => ?_)
      obtain ⟨hle, hne⟩ := h
      rcases hle with h1 | ⟨e, h1⟩
      · exact Or.inl h1
      · rcases lt_or_eq_of_le h1 with h2 | h2
        · exact Or.inr ⟨e, h2⟩
        · exact absurd ⟨e, h2⟩ hne
    haveI : IsAntisymm (String × Int × Int) vLt := by
      refine ⟨fun x y h1 h2 => absurd h1 ?_⟩
      intro h1
      rcases h1 with h1 | ⟨e1, s1⟩ <;> rcases h2 with h2 | ⟨e2, s2⟩
      · exact absurd h2 (lt_asymm h1)
      · exact absurd h1 (e2 ▸ lt_irrefl _)
      · exact absurd h2 (e1 ▸ lt_irrefl _)
      · exact absurd s2 (not_lt_of_lt s1)
    have heqV : ((_massageBlocks ((_massageBlocks bs mSel).mergeSort blockHKeyLe)
        hSel).mergeSort blockMKeyLe).map mView =
        ((_massageBlocks bs mSel).map mView) :=
      List.eq_of_perm_of_sorted vchain hVStrictFinal hVStrictM
    exact partitioned_congr mSel mView (fun b => rfl) _ _ heqV hpartM
  · -- human side: re-sorting the final list by the human key recovers the
    -- human pass output exactly
    have hpermB : ((massageBlocks bs).mergeSort blockHKeyLe).Perm
        (_massageBlocks ((_massageBlocks bs mSel).mergeSort blockHKeyLe) hSel) :=
      (List.mergeSort_perm (massageBlocks bs) blockHKeyLe).trans
        (List.mergeSort_perm _ blockMKeyLe)
    have hDhSymm : Symmetric (fun b c : Block =>
        ¬(hSel.chr b.fields = hSel.chr c.fields ∧
          hSel.gstart b.fields = hSel.gstart c.fields)) := by
      intro x y h hxy
      exact h ⟨hxy.1.symm, hxy.2.symm⟩
    have hDh : List.Pairwise (fun b c =>
        ¬(hSel.chr b.fields = hSel.chr c.fields ∧
          hSel.gstart b.fields = hSel.gstart c.fields))
        (_massageBlocks ((_massageBlocks bs mSel).mergeSort blockHKeyLe) hSel) :=
      hStrictH.imp (fun {b c} h hbc => by
        rcases h with h | ⟨-, h⟩
        · exact absurd hbc.1 (ne_of_lt h)
        · exact absurd hbc.2 (ne_of_lt h))
    have hDhB : List.Pairwise (fun b c =>
        ¬(hSel.chr b.fields = hSel.chr c.fields ∧
          hSel.gstart b.fields = hSel.gstart c.fields))
        ((massageBlocks bs).mergeSort blockHKeyLe) :=
      (hpermB.pairwise_iff (fun h => hDhSymm h)).mpr hDh
    have hsortB : List.Pairwise (fun b c => keyLeP hSel b.fields c.fields)
        ((massageBlocks bs).mergeSort blockHKeyLe) :=
      (List.sorted_mergeSort blockHKeyLe_trans blockHKeyLe_total
        (massageBlocks bs)).imp
        (fun {b c} h => (keyLe_iff hSel b.fields c.fields).mp h)
    have hStrictB : List.Pairwise (fun b c => keyLtP hSel b.fields c.fields)
        ((massageBlocks bs).mergeSort blockHKeyLe) :=
      (hsortB.and hDhB).imp (fun {b c} h => keyLtP_of_leP_ne hSel h.1 h.2)
    haveI : IsAntisymm Block (fun b c => keyLtP hSel b.fields c.fields) :=
      ⟨fun a b h1 h2 => (keyLtP_asymm hSel h1 h2).elim⟩
    have heqB : (massageBlocks bs).mergeSort blockHKeyLe =
        _massageBlocks ((_massageBlocks bs mSel).mergeSort blockHKeyLe) hSel :=
      List.eq_of_perm_of_sorted hpermB hStrictB hStrictH
    rw [heqB]
    exact hpartH

/-- C1, as amended. As stated the claim fails for a single block (see the
counterexample): `_massageBlocks` loops over adjacent pairs only, so a
one-block list is returned untouched and its start is not set to 1. For
at least two generated blocks it holds, given input records with
nondegenerate, 1-based intervals in both genomes arriving sorted by the
mouse (chromosome, start) key (as the SQL ORDER BY guarantees): after
`massageBlocks` completes, the blocks sorted by (chromosome, start) in
each genome independently satisfy the partition shape — first block (and
first block of each chromosome) starts at 1, and adjacent same-chromosome
blocks satisfy end(i) + 1 = start(i+1). -/
theorem pipeline_partitions_genomes (counter : String → Nat) (input : List Pair)
    (hsort : List.Pairwise (fun p q => mKeyLe p q = true) input)
    (hval : ∀ p ∈ input,
      1 ≤ p.mstart ∧ p.mstart < p.mend ∧ 1 ≤ p.hstart ∧ p.hstart < p.hend)
    (hlen : 2 ≤ (generateBlocks counter (preparePairs input)).1.length) :
    partitioned mSel
      ((massageBlocks (generateBlocks counter (preparePairs input)).1).mergeSort
        blockMKeyLe) ∧
    partitioned hSel
      ((massageBlocks (generateBlocks counter (preparePairs input)).1).mergeSort
        blockHKeyLe) := by
  obtain ⟨hD1, hD2, hD4, hD3⟩ := generator_block_facts counter input hsort hval
  exact massage_pipeline_facts _ hD1 hD2 hD4 hD3 hlen

/-- Witness for C1's amended statement: a two-chromosome input producing
two blocks whose hypotheses hold concretely. -/
theorem pipeline_partitions_genomes_witness :
    (List.Pairwise (fun p q => mKeyLe p q = true) [twoChrP1, twoChrP2] ∧
      (∀ p ∈ [twoChrP1, twoChrP2],
        1 ≤ p.mstart ∧ p.mstart < p.mend ∧ 1 ≤ p.hstart ∧ p.hstart < p.hend) ∧
      2 ≤ (generateBlocks counter0 (preparePairs [twoChrP1, twoChrP2])).1.length) ∧
    (partitioned mSel
      ((massageBlocks (generateBlocks counter0
        (preparePairs [twoChrP1, twoChrP2])).1).mergeSort blockMKeyLe) ∧
     partitioned hSel
      ((massageBlocks (generateBlocks counter0
        (preparePairs [twoChrP1, twoChrP2])).1).mergeSort blockHKeyLe)) := by
  have h1 : List.Pairwise (fun p q => mKeyLe p q = true) [twoChrP1, twoChrP2] := by
    simp +decide [List.pairwise_cons, twoChrP1, twoChrP2, mKeyLe, keyLe, mSel]
  have h2 : ∀ p ∈ [twoChrP1, twoChrP2],
      1 ≤ p.mstart ∧ p.mstart < p.mend ∧ 1 ≤ p.hstart ∧ p.hstart < p.hend := by
    decide
  have h3 : 2 ≤ (generateBlocks counter0 (preparePairs [twoChrP1, twoChrP2])).1.length := by
    simp +decide [preparePairs, generateBlocks, generateBlocksAux,
      List.mergeSort, List.merge, removeOverlaps, assignIHi, assignIMi,
      twoChrP1, twoChrP2, List.enum, List.enumFrom,
      counter0, startBlock, canMerge, extendBlock, orientationOf,
      mSel, hSel, keyLe, mKeyLe, hKeyLe,
      Nat.repr, Nat.toDigits, Nat.toDigitsCore, Nat.digitChar, List.asString]
  exact ⟨⟨h1, h2, h3⟩,
    pipeline_partitions_genomes counter0 [twoChrP1, twoChrP2] h1 h2 h3⟩

end RefreshSynteny
